import Mathlib

set_option maxHeartbeats 1000000
set_option allowUnsafeReducibility true
attribute [local semireducible] Rat.add Rat.mul Rat.inv Rat.sub Rat.ofScientific

/-!
Verification development for the summarix repository: a shallow embedding of
`src/summarizer.py` and `src/chatbot.py` in Lean 4, together with theorems about
the claims of the natural-language specification.

Python strings are modelled as Lean `String` (a list of unicode scalar values),
Python floats as exact rationals `ℚ`, Python dicts as insertion-ordered
association lists, and Python `sorted(..., reverse=True)` as a stable
descending insertion sort.  The NLTK tokenizer / stopword resources are
external collaborators of the repository; they are modelled abstractly by the
`NLP` structure, with a concrete executable instance `modelNLP`.
-/

namespace Summarix

/-! ## Python string primitives -/

/-- Model of Python `str.strip()` on a character list: remove leading and
trailing whitespace. -/
def pyStripChars (cs : List Char) : List Char :=
  ((cs.dropWhile Char.isWhitespace).reverse.dropWhile Char.isWhitespace).reverse

/-- Model of Python `str.strip()`. -/
def pyStrip (s : String) : String := String.mk (pyStripChars s.data)

/-- Model of Python `str.lower()`. -/
def pyLower (s : String) : String := String.mk (s.data.map Char.toLower)

/-- Model of Python `str.isalnum()`: nonempty and every character alphanumeric. -/
def pyIsAlnum (s : String) : Bool := !s.data.isEmpty && s.data.all Char.isAlphanum

/-- Model of Python `needle in hay` prefix test on character lists. -/
def isPrefixChars : List Char → List Char → Bool
  | [], _ => true
  | _ :: _, [] => false
  | a :: as, b :: bs => a = b && isPrefixChars as bs

/-- Scan helper for substring containment. -/
def containsAux (nd : List Char) : List Char → Bool
  | [] => nd.isEmpty
  | c :: rest => isPrefixChars nd (c :: rest) || containsAux nd rest

/-- Model of Python `needle in hay` (substring containment). -/
def pyIn (needle hay : String) : Bool := containsAux needle.data hay.data

/-- Model of Python `s[:n]` for a string. -/
def pyTake (n : Nat) (s : String) : String := String.mk (s.data.take n)

/-- Replace every maximal run of whitespace by a single space, as
`re.sub(r"\s+", " ", text)` does.  The boolean records whether the previously
emitted character came from a whitespace run. -/
def squashAux : Bool → List Char → List Char
  | _, [] => []
  | prevWs, c :: cs =>
    if c.isWhitespace then
      if prevWs then squashAux true cs else ' ' :: squashAux true cs
    else c :: squashAux false cs

/-- Whitespace normalization: collapse runs, then strip.  This is the
character-level content of `_clean_text` in `src/summarizer.py`. -/
def cleanChars (cs : List Char) : List Char :=
  pyStripChars (squashAux false cs)

/-- Embeds `_clean_text` (src/summarizer.py lines 19-20):
`re.sub(r"\s+", " ", text).strip()`. -/
def _clean_text (text : String) : String := String.mk (cleanChars text.data)

/-- Model of Python `" ".join(l)` and friends. -/
def joinSep (sep : String) : List String → String
  | [] => ""
  | [s] => s
  | s :: rest => s ++ sep ++ joinSep sep rest

/-- Model of Python `str.split()` (split on whitespace runs, dropping empties). -/
def pySplitAux : List Char → List Char → List String
  | [], acc => if acc.isEmpty then [] else [String.mk acc.reverse]
  | c :: rest, acc =>
    if c.isWhitespace then
      if acc.isEmpty then pySplitAux rest [] else String.mk acc.reverse :: pySplitAux rest []
    else pySplitAux rest (c :: acc)

/-- Model of Python `str.split()`. -/
def pySplit (s : String) : List String := pySplitAux s.data []

/-- Model of Python `s.split("\n\n")` (used by `get_summary_stats`). -/
def splitNN : List Char → List Char → List (List Char)
  | [], acc => [acc.reverse]
  | [c], acc => [(c :: acc).reverse]
  | c :: c2 :: rest, acc =>
    if c = '\n' ∧ c2 = '\n' then acc.reverse :: splitNN rest []
    else splitNN (c2 :: rest) (c :: acc)

/-! ## Model of the NLTK tokenizer / stopword service -/

/-- Sentence-final punctuation recognised by the model sentence splitter. -/
def isSentEnd (c : Char) : Bool := c = '.' || c = '!' || c = '?'

/-- Head-is-whitespace test used as break lookahead. -/
def headIsWS : List Char → Bool
  | [] => false
  | c :: _ => c.isWhitespace

/-- Sentence splitter: a sentence ends at `.`, `!` or `?` followed by
whitespace (or end of input); whitespace before a sentence is skipped. -/
def splitSentencesAux : List Char → List Char → List String
  | [], acc => if acc.isEmpty then [] else [String.mk acc.reverse]
  | c :: rest, acc =>
    if c.isWhitespace && acc.isEmpty then
      splitSentencesAux rest acc
    else if isSentEnd c && (rest.isEmpty || headIsWS rest) then
      String.mk (c :: acc).reverse :: splitSentencesAux rest []
    else
      splitSentencesAux rest (c :: acc)

/-- Modelled from the spec: the NLTK `sent_tokenize` of the Tokenizer/Stopword
Service (resource `tokenizers/punkt`), which is external to the repository.
Modelled as whitespace normalization followed by splitting after
sentence-final punctuation that precedes whitespace or end of text. -/
def sent_tokenize (s : String) : List String :=
  splitSentencesAux (cleanChars s.data) []

/-- Word splitter: maximal alphanumeric runs are word tokens, every other
non-whitespace character is a token of its own. -/
def splitWordsAux : List Char → List Char → List String
  | [], acc => if acc.isEmpty then [] else [String.mk acc.reverse]
  | c :: rest, acc =>
    if c.isAlphanum then splitWordsAux rest (c :: acc)
    else if c.isWhitespace then
      if acc.isEmpty then splitWordsAux rest []
      else String.mk acc.reverse :: splitWordsAux rest []
    else
      if acc.isEmpty then String.singleton c :: splitWordsAux rest []
      else String.mk acc.reverse :: String.singleton c :: splitWordsAux rest []

/-- Modelled from the spec: the NLTK `word_tokenize` of the Tokenizer/Stopword
Service, external to the repository.  Modelled as splitting into alphanumeric
runs and single punctuation tokens. -/
def word_tokenize (s : String) : List String := splitWordsAux s.data []

/-- Modelled from the spec: the NLTK English stopword list
(resource `corpora/stopwords`), external data; modelled as a representative
subset of that list. -/
def STOP_WORDS : List String :=
  ["i", "me", "my", "we", "our", "you", "your", "he", "she", "it", "they",
   "them", "the", "a", "an", "and", "or", "but", "if", "then", "than", "is",
   "are", "was", "were", "be", "been", "being", "have", "has", "had", "do",
   "does", "did", "to", "of", "in", "on", "for", "with", "as", "at", "by",
   "this", "that", "these", "those", "too", "very", "can", "will", "just",
   "not", "no", "so", "what", "which", "who", "whom", "about", "against",
   "between", "into", "through", "during", "before", "after", "both", "each",
   "few", "more", "most", "other", "some", "such", "own", "same", "from"]

/-- The tokenizer / stopword leaf service consumed by the summarizer: sentence
and word tokenization plus the stopword set (spec section 2). -/
structure NLP where
  sentTokenize : String → List String
  wordTokenize : String → List String
  stopWords : List String

/-- The concrete model instance of the tokenizer service. -/
def modelNLP : NLP :=
  { sentTokenize := sent_tokenize
    wordTokenize := word_tokenize
    stopWords := STOP_WORDS }

/-! ## Embedding of `summarize_text` (src/summarizer.py)

Python floats are modelled as exact rationals; `int(x)` on a nonnegative
float is `⌊x⌋`. -/

/-- Model of `max(0.1, min(0.9, ratio))` (src/summarizer.py line 26). -/
def clamp01 (q : ℚ) : ℚ := max (1 / 10) (min (9 / 10) q)

/-- Model of Python `int(q)` for nonnegative `q` (truncation = floor). -/
def pyInt (q : ℚ) : Nat := (Rat.floor q).toNat

/-- Model of Python `math.ceil(q)` restricted to nonnegative results. -/
def pyCeil (q : ℚ) : Nat := (-(Rat.floor (-q))).toNat

/-- Insertion-ordered counter update modelling `defaultdict(int)` with
`freq[w] += 1`. -/
def bump : List (String × Nat) → String → List (String × Nat)
  | [], w => [(w, 1)]
  | (k, v) :: rest, w =>
    if k = w then (k, v + 1) :: rest else (k, v) :: bump rest w

/-- Dict lookup (`w in freq` / `freq[w]`) on an association list. -/
def alookup {β : Type} : List (String × β) → String → Option β
  | [], _ => none
  | (k, v) :: rest, w => if k = w then some v else alookup rest w

/-- Dict assignment `d[k] = v`: update in place if present, else append. -/
def insertOrUpdate {β : Type} : List (String × β) → String → β → List (String × β)
  | [], k, v => [(k, v)]
  | (k0, v0) :: rest, k, v =>
    if k0 = k then (k0, v) :: rest else (k0, v0) :: insertOrUpdate rest k v

/-- The frequency-table loop of src/summarizer.py lines 32-35: count
alphanumeric non-stopword tokens. -/
def freqFold (stop : List String) (words : List String) : List (String × Nat) :=
  words.foldl
    (fun acc w => if pyIsAlnum w && !(stop.contains w) then bump acc w else acc) []

/-- `max(freq.values())` (src/summarizer.py line 39). -/
def maxVal (l : List (String × Nat)) : Nat :=
  l.foldl (fun m p => max m p.2) 0

/-- The per-sentence scoring loop of src/summarizer.py lines 45-51: running
`score` and `count` over the sentence words; alphanumeric tokens bump the
count and, when present in the normalized table, add their frequency. -/
def scoreLoop (freqN : List (String × ℚ)) : List String → ℚ → Nat → ℚ × Nat
  | [], score, count => (score, count)
  | w :: ws, score, count =>
    if pyIsAlnum w then
      match alookup freqN w with
      | some f => scoreLoop freqN ws (score + f) (count + 1)
      | none => scoreLoop freqN ws score (count + 1)
    else scoreLoop freqN ws score count

/-- Score of one sentence: `score / count` when `count > 0`, no entry
otherwise (src/summarizer.py lines 43-53). -/
def sentScore (nlp : NLP) (freqN : List (String × ℚ)) (s : String) : Option ℚ :=
  let sc := scoreLoop freqN (nlp.wordTokenize (pyLower s)) 0 0
  if 0 < sc.2 then some (sc.1 / (sc.2 : ℚ)) else none

/-- The `sent_scores` dict built over the sentences (src/summarizer.py
lines 42-53). -/
def buildSentScores (f : String → Option ℚ) : List String → List (String × ℚ) → List (String × ℚ)
  | [], m => m
  | s :: rest, m =>
    match f s with
    | some v => buildSentScores f rest (insertOrUpdate m s v)
    | none => buildSentScores f rest m

/-- Stable descending insertion (ties keep earlier elements first), matching
Python `sorted(..., key=lambda x: x[1], reverse=True)`. -/
def insertDesc {α : Type} {β : Type} [LinearOrder β] (x : α × β) :
    List (α × β) → List (α × β)
  | [] => [x]
  | y :: ys => if x.2 ≤ y.2 then y :: insertDesc x ys else x :: y :: ys

/-- Stable descending sort by second component. -/
def sortDesc {α : Type} {β : Type} [LinearOrder β] (l : List (α × β)) : List (α × β) :=
  l.foldl (fun acc x => insertDesc x acc) []

/-- `sentences` of src/summarizer.py line 28: tokenize the cleaned text. -/
def sentencesOf (nlp : NLP) (text : String) : List String :=
  nlp.sentTokenize (_clean_text text)

/-- `words` of src/summarizer.py line 31: word-tokenize the lowercased
cleaned text. -/
def wordsOf (nlp : NLP) (text : String) : List String :=
  nlp.wordTokenize (pyLower (_clean_text text))

/-- `freq` of src/summarizer.py lines 32-35. -/
def freqOf (nlp : NLP) (text : String) : List (String × Nat) :=
  freqFold nlp.stopWords (wordsOf nlp text)

/-- The normalized frequency table of src/summarizer.py lines 39-41:
divide every count by the maximum count. -/
def freqNOf (nlp : NLP) (text : String) : List (String × ℚ) :=
  (freqOf nlp text).map (fun p => (p.1, (p.2 : ℚ) / ((maxVal (freqOf nlp text)) : ℚ)))

/-- `sent_scores` of src/summarizer.py lines 42-53. -/
def sentScoresOf (nlp : NLP) (text : String) : List (String × ℚ) :=
  buildSentScores (sentScore nlp (freqNOf nlp text)) (sentencesOf nlp text) []

/-- `select_n = max(1, int(len(sentences) * ratio))` (src/summarizer.py
line 54; the identical formula also appears on line 37). -/
def selectN (nlp : NLP) (text : String) ( ratio : ℚ) : Nat :=
  max 1 (pyInt (((sentencesOf nlp text).length : ℚ) * clamp01 ratio))

/-- `ranked` of src/summarizer.py line 55. -/
def rankedOf (nlp : NLP) (text : String) : List (String × ℚ) :=
  sortDesc (sentScoresOf nlp text)

/-- `top_sentences` of src/summarizer.py line 56. -/
def topOf (nlp : NLP) (text : String) ( ratio : ℚ) : List String :=
  ((rankedOf nlp text).take (selectN nlp text ratio)).map Prod.fst

/-- The selected sentence list joined on src/summarizer.py lines 36-38 and
56-60: when the frequency table is empty, the first `select_n` sentences;
otherwise the top-scored sentences filtered back into document order, with
the defensive `sentences[:select_n]` fallback of lines 58-59. -/
def summary_sentences (nlp : NLP) (text : String) ( ratio : ℚ) : List String :=
  if (freqOf nlp text).isEmpty then
    (sentencesOf nlp text).take (selectN nlp text ratio)
  else if ((sentencesOf nlp text).filter
      (fun s => (topOf nlp text ratio).contains s)).isEmpty then
    (sentencesOf nlp text).take (selectN nlp text ratio)
  else
    (sentencesOf nlp text).filter (fun s => (topOf nlp text ratio).contains s)

/-- Embeds `summarize_text` (src/summarizer.py lines 23-60) for a numeric
`ratio` argument:  return `""` for empty/whitespace text (line 24-25); clamp
the ratio (line 26, folded into `selectN`/`summary_sentences`); clean the
text (line 27); return the cleaned text when it has at most one sentence
(lines 29-30); otherwise join the selected sentences with single spaces
(lines 36-38, 54-60). -/
def summarize_text (nlp : NLP) (text : String) ( ratio : ℚ) : String :=
  if pyStrip text = "" then ""
  else if (sentencesOf nlp text).length ≤ 1 then _clean_text text
  else joinSep " " (summary_sentences nlp text ratio)

/-- The possible Python values passed as the `ratio` argument: a number, a
numeric string, or a value `float()` rejects. -/
inductive RatioInput : Type where
  | num (q : ℚ)
  | numStr (q : ℚ)
  | malformed
  deriving DecidableEq

/-- Model of Python `float(ratio)` (src/summarizer.py line 26): numbers and
numeric strings convert, anything else raises `ValueError`/`TypeError`. -/
def pyFloat : RatioInput → Except String ℚ
  | RatioInput.num q => Except.ok q
  | RatioInput.numStr q => Except.ok q
  | RatioInput.malformed => Except.error "could not convert ratio to float"

/-- `summarize_text` on an arbitrary Python `ratio` value, with exceptions
made explicit: the empty-text guard (line 24) runs before `float(ratio)`
(line 26), so malformed ratios raise exactly when the text is non-blank. -/
def summarize_text_total (nlp : NLP) (text : String) (r : RatioInput) :
    Except String String :=
  if pyStrip text = "" then Except.ok ""
  else
    match pyFloat r with
    | Except.ok q => Except.ok (summarize_text nlp text q)
    | Except.error e => Except.error e

/-! ## Embedding of `src/chatbot.py`

The chatbot module imports the same NLTK resources directly, so its embedding
uses the concrete model tokenizer. -/

/-- Embeds `normalize_text` (src/chatbot.py lines 19-22): lowercase, strip,
remove characters that are neither word characters nor whitespace. -/
def normalize_text (text : String) : String :=
  let t := pyStrip (pyLower text)
  String.mk (t.data.filter (fun c => c.isAlphanum || c = '_' || c.isWhitespace))

/-- Embeds `extract_keywords` (src/chatbot.py lines 25-32): count alphanumeric
non-stopword tokens longer than two characters, return the `top_n` most
frequent. -/
def extract_keywords (text : String) (top_n : Nat) : List String :=
  let words := word_tokenize (pyLower text)
  let freq := words.foldl
    (fun acc w =>
      if pyIsAlnum w && !(STOP_WORDS.contains w) && decide (2 < w.length)
      then bump acc w else acc) []
  ((sortDesc freq).take top_n).map Prod.fst

/-- The pattern table of `detect_intent` (src/chatbot.py lines 38-44), in
declaration order. -/
def intentPatterns : List (String × List (List String)) :=
  [("what_about", [["what", "about"], ["what", "is", "about"], ["tell", "me", "about"]]),
   ("key_points", [["key", "point"], ["main", "point"], ["important", "point"],
                   ["key", "idea"], ["what", "are", "key"]]),
   ("make_shorter", [["shorter"], ["shorten"], ["condense"], ["brief"]]),
   ("explain", [["explain"], ["elaborate"], ["describe"], ["clarify"]]),
   ("summary_length", [["how", "long"], ["length"], ["word", "count"],
                       ["character", "count"], ["stats"]])]

/-- `all(p in tokens for p in pat)` (src/chatbot.py line 47). -/
def patternMatches (tokens : List String) (pat : List String) : Bool :=
  pat.all (fun p => tokens.contains p)

/-- Embeds `detect_intent` (src/chatbot.py lines 35-49): normalize and split
the question, return the first intent having a fully-matched pattern, else
`"general"`. -/
def detect_intent (question : String) : String :=
  let tokens := pySplit (normalize_text question)
  match intentPatterns.find? (fun ip => ip.2.any (patternMatches tokens)) with
  | some ip => ip.1
  | none => "general"

/-- Embeds `get_key_points` (src/chatbot.py lines 52-66): rank stripped
sentences by keyword hits, keep up to `max_points` with nonzero score, else
fall back to the first `max_points` sentences. -/
def get_key_points (summary : String) (max_points : Nat) : List String :=
  let sents := sent_tokenize summary
  if sents.isEmpty then []
  else
    let keywords := extract_keywords summary 10
    let scored := sents.map
      (fun s => (pyStrip s, (keywords.filter (fun k => pyIn k (pyLower s))).length))
    let ranked := sortDesc scored
    let key_points := ((ranked.take max_points).filter (fun p => 0 < p.2)).map Prod.fst
    if key_points.isEmpty then (sents.take max_points).map pyStrip else key_points

/-- Embeds `make_shorter` (src/chatbot.py lines 69-77): re-run the summarizer
on the summary; `new or summary` keeps the original when the result is empty.
(The `except` fallback of lines 74-77 is unreachable in the model, where
neither the module load nor the summarizer call can raise.) -/
def make_shorter (summary : String) ( ratio : ℚ) : String :=
  let new := summarize_text modelNLP summary ratio
  if new = "" then summary else new

/-- Embeds `explain_summary` (src/chatbot.py lines 80-88). -/
def explain_summary (summary : String) : String :=
  let sents := sent_tokenize summary
  let word_count := (pySplit summary).length
  let char_count := summary.data.length
  let keywords := extract_keywords summary 5
  let explanation := "This summary contains " ++ Nat.repr sents.length ++
    " sentence(s), approximately " ++ Nat.repr word_count ++ " words (" ++
    Nat.repr char_count ++ " characters). "
  if keywords.isEmpty then explanation
  else explanation ++ "Key topics: " ++ joinSep ", " keywords ++ "."

/-- Python `f"{n:,}"`: decimal digits grouped in threes by commas. -/
def group3 : List Char → List Char
  | a :: b :: c :: d :: rest => a :: b :: c :: ',' :: group3 (d :: rest)
  | l => l

/-- Python `f"{n:,}"` for a natural number. -/
def commaFmt (n : Nat) : String :=
  String.mk ((group3 (Nat.toDigits 10 n).reverse).reverse)

/-- The paragraph count of `get_summary_stats` (src/chatbot.py line 96):
chunks between blank lines (`split("\n\n")`) that are non-blank. -/
def paragraph_count (summary : String) : Nat :=
  ((splitNN summary.data []).filter (fun p => !(pyStripChars p).isEmpty)).length

/-- Embeds `get_summary_stats` (src/chatbot.py lines 91-98). -/
def get_summary_stats (summary : String) : String :=
  let word_count := (pySplit summary).length
  let char_count := summary.data.length
  let char_count_no_spaces := (summary.data.filter (fun c => c ≠ ' ')).length
  let sentence_count := (sent_tokenize summary).length
  "📊 Summary Statistics:\n\n• Words: " ++ commaFmt word_count ++
    "\n• Characters: " ++ commaFmt char_count ++
    "\n• Characters (no spaces): " ++ commaFmt char_count_no_spaces ++
    "\n• Sentences: " ++ Nat.repr sentence_count ++
    "\n• Paragraphs: " ++ Nat.repr (paragraph_count summary)

/-- Embeds `chat_with_summary` (src/chatbot.py lines 101-141): guard on blank
summary, then blank question, then dispatch on the detected intent.  (The
`except` handler of lines 139-140 is unreachable in the model, where no
branch can raise.) -/
def chat_with_summary (question summary : String) : String :=
  if pyStrip summary = "" then
    "I don\x27t have a summary to discuss yet. Please generate a summary first!"
  else if pyStrip question = "" then
    "Please ask a question about the summary!"
  else
    let intent := detect_intent question
    if intent = "what_about" then
      let keywords := extract_keywords summary 5
      let first :=
        match sent_tokenize summary with
        | [] => pyTake 200 summary
        | s :: _ => s
      "This summary is about: " ++ joinSep ", " keywords ++ ". For example: " ++ first
    else if intent = "key_points" then
      let points := get_key_points summary 5
      if points.isEmpty then "I couldn\x27t extract clear key points."
      else
        pyStrip ("🔑 Key Points:\n" ++
          joinSep "" (points.enum.map (fun p => Nat.repr (p.1 + 1) ++ ". " ++ p.2 ++ "\n")))
    else if intent = "make_shorter" then
      "📝 Shorter version:\n\n" ++ make_shorter summary (1 / 2)
    else if intent = "explain" then
      "💡 Explanation:\n\n" ++ explain_summary summary
    else if intent = "summary_length" then
      get_summary_stats summary
    else
      let qwords := (word_tokenize (pyLower question)).filter
        (fun w => pyIsAlnum w && !(STOP_WORDS.contains w))
      let sents := sent_tokenize summary
      let relevant := sents.filter (fun s => qwords.any (fun q => pyIn q (pyLower s)))
      if relevant.isEmpty then
        "I didn\x27t find a direct answer in the summary. Try: \x27What is this about?\x27, \x27Give key points\x27, \x27Make it shorter\x27, or \x27How long is this summary?\x27"
      else
        "Based on your question, here are relevant sentences:\n\n" ++
          joinSep " " (relevant.take 3)

/-! ## Predicates used by the theorems -/

/-- No two adjacent whitespace characters. -/
def noDbl (a b : Char) : Prop := ¬(a.isWhitespace ∧ b.isWhitespace)

/-- No sentence break between two adjacent characters: not a sentence-final
punctuation mark followed by whitespace. -/
def okPair (a b : Char) : Prop := ¬(isSentEnd a = true ∧ b.isWhitespace = true)

/-- A character list in normalized form: whitespace only as single interior
spaces. -/
def CleanData (cs : List Char) : Prop :=
  (∀ c ∈ cs, c.isWhitespace → c = ' ') ∧ List.Chain' noDbl cs ∧
  (∀ h, cs.head? = some h → ¬h.isWhitespace) ∧
  (∀ h, cs.getLast? = some h → ¬h.isWhitespace)

/-- Invariant of the sentence-splitter accumulator: the collected characters
contain no sentence break, start with a non-whitespace character, and do not
form a break with the next input character. -/
def accInv (acc cs : List Char) : Prop :=
  List.Chain' okPair acc.reverse ∧
  (∀ h, acc.reverse.head? = some h → ¬h.isWhitespace) ∧
  (∀ a c, acc.head? = some a → cs.head? = some c → okPair a c) ∧
  (cs = [] → ∀ a, acc.head? = some a → ¬a.isWhitespace)

/-- A well-formed sentence piece: nonempty, without an internal sentence
break, not starting or ending in whitespace. -/
def GoodPiece (s : String) : Prop :=
  s.data ≠ [] ∧ List.Chain' okPair s.data ∧
  (∀ h, s.data.head? = some h → ¬h.isWhitespace) ∧
  (∀ h, s.data.getLast? = some h → ¬h.isWhitespace)

/-- The alphanumeric tokens of a sentence, as counted by the scoring loop of
src/summarizer.py lines 47-49. -/
def alnumTokens (nlp : NLP) (s : String) : List String :=
  (nlp.wordTokenize (pyLower s)).filter pyIsAlnum

/-- Number of alphanumeric tokens of a sentence. -/
def alnumCount (nlp : NLP) (s : String) : Nat := (alnumTokens nlp s).length

/-- The normalized frequency of a token: its table entry, `0` if absent
(a stopword or unseen token contributes nothing to a sentence score). -/
def tokenNormFreq (freqN : List (String × ℚ)) (w : String) : ℚ :=
  (alookup freqN w).getD 0

/-- The sentence score as the specification words it: mean normalized
frequency over the alphanumeric tokens of the sentence. -/
def specMeanScore (nlp : NLP) (text s : String) : ℚ :=
  ((alnumTokens nlp s).map (tokenNormFreq (freqNOf nlp text))).sum /
    ((alnumCount nlp s : ℚ))

/-- The closed set of intents (spec section 3). -/
def intentNames : List String :=
  ["what_about", "key_points", "make_shorter", "explain", "summary_length", "general"]

/-! ## Theorems: floor arithmetic -/

/-- The executable `Rat.floor` agrees with the mathematical floor. -/
theorem ratFloor_eq (q : ℚ) : Rat.floor q = ⌊q⌋ :=
  le_antisymm (Int.le_floor.mpr (Rat.le_floor.mp le_rfl)) (Rat.le_floor.mpr (Int.floor_le q))

/-- Unfolding `pyInt` to the mathematical floor. -/
theorem pyInt_eq (q : ℚ) : pyInt q = (⌊q⌋).toNat := by
  unfold pyInt
  rw [ratFloor_eq]

/-- `pyInt (n * q) ≤ n` whenever `q ≤ 1`. -/
theorem pyInt_mul_le (n : Nat) (q : ℚ) (hq : q ≤ 1) : pyInt ((n : ℚ) * q) ≤ n := by
  rw [pyInt_eq]
  have h1 : ((n : ℚ) * q) ≤ (n : ℚ) := by
    calc (n : ℚ) * q ≤ (n : ℚ) * 1 := by
          exact mul_le_mul_of_nonneg_left hq (by positivity)
      _ = (n : ℚ) := by ring
  have h2 : ⌊(n : ℚ) * q⌋ ≤ (n : ℤ) := by
    have := Int.floor_le_floor h1
    simpa using this
  omega

/-- Bounds of the clamped ratio. -/
theorem clamp01_bounds (q : ℚ) : 1 / 10 ≤ clamp01 q ∧ clamp01 q ≤ 9 / 10 := by
  unfold clamp01
  constructor
  · exact le_max_left _ _
  · apply max_le
    · norm_num
    · exact min_le_left _ _

/-- The clamp is the identity on `[0.1, 0.9]`. -/
theorem clamp01_eq_self (q : ℚ) (h1 : 1 / 10 ≤ q) (h2 : q ≤ 9 / 10) :
    clamp01 q = q := by
  unfold clamp01
  rw [min_eq_right h2, max_eq_right h1]

/-- `selectN` never exceeds the sentence count when there is a sentence. -/
theorem selectN_le (nlp : NLP) (text : String) (q : ℚ)
    (hn : 1 ≤ (sentencesOf nlp text).length) :
    selectN nlp text q ≤ (sentencesOf nlp text).length := by
  unfold selectN
  apply max_le hn
  apply pyInt_mul_le
  have := (clamp01_bounds q).2
  linarith

/-! ## Theorems: strings and whitespace -/

/-- A `String.mk` is empty exactly when its character list is. -/
theorem string_mk_eq_empty_iff (cs : List Char) : String.mk cs = "" ↔ cs = [] := by
  constructor
  · intro h
    simpa using congrArg String.data h
  · rintro rfl
    rfl

/-- Appending strings appends their character lists. -/
theorem data_append (a b : String) : (a ++ b).data = a.data ++ b.data := rfl

/-- The whole tail of a `dropWhile` satisfying `p` forces the whole list to. -/
theorem dropWhile_all_iff {p : Char → Bool} : ∀ {cs : List Char},
    (∀ x ∈ cs.dropWhile p, p x) ↔ (∀ x ∈ cs, p x) := by
  intro cs
  induction cs with
  | nil => simp
  | cons c rest ih =>
    simp only [List.dropWhile_cons]
    by_cases h : p c
    · rw [if_pos h, ih]
      constructor
      · intro hall x hx
        rcases List.mem_cons.mp hx with rfl | hx
        · exact h
        · exact hall x hx
      · intro hall x hx
        exact hall x (List.mem_cons_of_mem _ hx)
    · rw [if_neg h]

/-- `pyStripChars` in terms of the library strip-from-both-ends combinators. -/
theorem pyStripChars_eq_rdrop (cs : List Char) :
    pyStripChars cs =
      List.rdropWhile Char.isWhitespace (cs.dropWhile Char.isWhitespace) := rfl

/-- A stripped list is empty exactly when everything was whitespace. -/
theorem pyStripChars_eq_nil_iff (cs : List Char) :
    pyStripChars cs = [] ↔ ∀ c ∈ cs, c.isWhitespace := by
  rw [pyStripChars_eq_rdrop, List.rdropWhile_eq_nil_iff, dropWhile_all_iff]

/-- `pyStrip` returns the empty string exactly when everything was
whitespace. -/
theorem pyStrip_eq_empty_iff (s : String) :
    pyStrip s = "" ↔ ∀ c ∈ s.data, c.isWhitespace := by
  unfold pyStrip
  rw [string_mk_eq_empty_iff, pyStripChars_eq_nil_iff]

/-- Stripping yields an infix of the original list. -/
theorem pyStripChars_within (cs : List Char) : pyStripChars cs <:+: cs := by
  rw [pyStripChars_eq_rdrop]
  exact List.IsInfix.trans (List.IsPrefix.isInfix ( List.rdropWhile_prefix _ _))
    (List.IsSuffix.isInfix ( List.dropWhile_suffix _))

/-- The head of a stripped list is not whitespace. -/
theorem pyStripChars_head_not_ws (cs : List Char) :
    ∀ h, (pyStripChars cs).head? = some h → ¬h.isWhitespace := by
  intro h hh
  have hne : pyStripChars cs ≠ [] := by
    intro e
    rw [e] at hh
    simp at hh
  have hpre : pyStripChars cs <+: cs.dropWhile Char.isWhitespace := by
    rw [pyStripChars_eq_rdrop]
    exact List.rdropWhile_prefix _ _
  obtain ⟨t, ht⟩ := hpre
  have hdne : cs.dropWhile Char.isWhitespace ≠ [] := by
    intro e
    rw [e] at ht
    exact hne (List.append_eq_nil.mp ht).1
  have hhead : (cs.dropWhile Char.isWhitespace).head? = some h := by
    rw [← ht, List.head?_append_of_ne_nil _ hne, hh]
  have hnot := List.head_dropWhile_not Char.isWhitespace cs hdne
  rw [List.head?_eq_head hdne] at hhead
  have heq : (cs.dropWhile Char.isWhitespace).head hdne = h := Option.some.inj hhead
  rw [← heq]
  simpa using hnot

/-- The last character of a stripped list is not whitespace. -/
theorem pyStripChars_last_not_ws (cs : List Char) :
    ∀ h, (pyStripChars cs).getLast? = some h → ¬h.isWhitespace := by
  intro h hh
  have hne : pyStripChars cs ≠ [] := by
    intro e
    rw [e] at hh
    simp at hh
  rw [pyStripChars_eq_rdrop] at hh hne
  have hnot := List.rdropWhile_last_not Char.isWhitespace _ hne
  rw [List.getLast?_eq_getLast _ hne] at hh
  have heq := Option.some.inj hh
  rw [← heq]
  simpa using hnot

/-- Stripping does nothing when both ends are already non-whitespace. -/
theorem pyStripChars_eq_self (cs : List Char)
    (hh : ∀ h, cs.head? = some h → ¬h.isWhitespace)
    (hl : ∀ h, cs.getLast? = some h → ¬h.isWhitespace) :
    pyStripChars cs = cs := by
  rw [pyStripChars_eq_rdrop]
  have h1 : cs.dropWhile Char.isWhitespace = cs := by
    cases cs with
    | nil => rfl
    | cons c rest =>
      have : ¬c.isWhitespace := hh c rfl
      simp [List.dropWhile_cons, this]
  rw [h1, List.rdropWhile_eq_self_iff]
  intro hne
  have := hl (cs.getLast hne) (List.getLast?_eq_getLast _ hne)
  simpa using this

/-! ## Theorems: whitespace squashing -/

/-- Characters of a squashed list: spaces, or non-whitespace originals. -/
theorem squashAux_mem : ∀ (cs : List Char) (b : Bool), ∀ c ∈ squashAux b cs,
    c = ' ' ∨ (c ∈ cs ∧ ¬c.isWhitespace) := by
  intro cs
  induction cs with
  | nil =>
    intro b c hc
    simp [squashAux] at hc
  | cons x rest ih =>
    intro b c hc
    by_cases hx : x.isWhitespace
    · cases b with
      | true =>
        simp only [squashAux, if_pos hx, if_pos rfl] at hc
        rcases ih true c hc with h | ⟨hm, hw⟩
        · exact Or.inl h
        · exact Or.inr ⟨List.mem_cons_of_mem _ hm, hw⟩
      | false =>
        simp only [squashAux, if_pos hx] at hc
        rcases List.mem_cons.mp hc with rfl | hc
        · exact Or.inl rfl
        · rcases ih true c hc with h | ⟨hm, hw⟩
          · exact Or.inl h
          · exact Or.inr ⟨List.mem_cons_of_mem _ hm, hw⟩
    · simp only [squashAux, if_neg hx] at hc
      rcases List.mem_cons.mp hc with rfl | hc
      · exact Or.inr ⟨List.mem_cons_self _ _, hx⟩
      · rcases ih false c hc with h | ⟨hm, hw⟩
        · exact Or.inl h
        · exact Or.inr ⟨List.mem_cons_of_mem _ hm, hw⟩

/-- Squashing an all-whitespace list yields only whitespace. -/
theorem squashAux_all_ws (cs : List Char) (b : Bool)
    (h : ∀ c ∈ cs, c.isWhitespace) : ∀ c ∈ squashAux b cs, c.isWhitespace := by
  intro c hc
  rcases squashAux_mem cs b c hc with rfl | ⟨hm, hw⟩
  · decide
  · exact absurd (h c hm) hw

/-- Squashing preserves the existence of a non-whitespace character. -/
theorem squashAux_exists_nonws : ∀ (cs : List Char) (b : Bool),
    (∃ c ∈ cs, ¬c.isWhitespace) → ∃ c ∈ squashAux b cs, ¬c.isWhitespace := by
  intro cs
  induction cs with
  | nil =>
    intro b h
    simp at h
  | cons x rest ih =>
    intro b ⟨c, hc, hw⟩
    rcases List.mem_cons.mp hc with rfl | hc
    · simp only [squashAux, if_neg hw]
      exact ⟨c, List.mem_cons_self _ _, hw⟩
    · by_cases hx : x.isWhitespace
      · obtain ⟨d, hd, hdw⟩ := ih true ⟨c, hc, hw⟩
        cases b with
        | true =>
          refine ⟨d, ?_, hdw⟩
          simpa only [squashAux, if_pos hx, if_pos rfl] using hd
        | false =>
          refine ⟨d, ?_, hdw⟩
          simp only [squashAux, if_pos hx]
          exact List.mem_cons_of_mem _ hd
      · obtain ⟨d, hd, hdw⟩ := ih false ⟨c, hc, hw⟩
        refine ⟨d, ?_, hdw⟩
        simp only [squashAux, if_neg hx]
        exact List.mem_cons_of_mem _ hd

/-- A squashed list has no adjacent whitespace pair, and with the flag set its
head is not whitespace. -/
theorem squashAux_chain : ∀ (cs : List Char) (b : Bool),
    List.Chain' noDbl (squashAux b cs) ∧
      (b = true → ∀ h, (squashAux b cs).head? = some h → ¬h.isWhitespace) := by
  intro cs
  induction cs with
  | nil =>
    intro b
    constructor
    · simp [squashAux]
    · intro _ h hh
      simp [squashAux] at hh
  | cons x rest ih =>
    intro b
    by_cases hx : x.isWhitespace
    · cases b with
      | true =>
        have := ih true
        constructor
        · simpa only [squashAux, if_pos hx, if_pos rfl] using this.1
        · intro _ h hh
          apply this.2 rfl h
          simpa only [squashAux, if_pos hx, if_pos rfl] using hh
      | false =>
        constructor
        · simp only [squashAux, if_pos hx, Bool.false_eq_true, if_false]
          rw [List.chain'_cons']
          constructor
          · intro z hz
            have := (ih true).2 rfl z hz
            intro hcon
            exact this hcon.2
          · exact (ih true).1
        · intro hcon
          exact absurd hcon (by simp)
    · constructor
      · simp only [squashAux, if_neg hx]
        rw [List.chain'_cons']
        constructor
        · intro z _
          intro hcon
          exact hx hcon.1
        · exact (ih false).1
      · intro _ h hh
        simp only [squashAux, if_neg hx, List.head?_cons, Option.some.injEq] at hh
        rw [← hh]
        exact hx

/-- The cleaned character list is in normalized form. -/
theorem cleanChars_clean (cs : List Char) : CleanData (cleanChars cs) := by
  refine ⟨?_, ?_, ?_, ?_⟩
  · intro c hc hw
    have hmem : c ∈ squashAux false cs :=
      (pyStripChars_within (squashAux false cs)).mem hc
    rcases squashAux_mem cs false c hmem with rfl | ⟨_, hnw⟩
    · rfl
    · exact absurd hw hnw
  · exact List.Chain'.infix ((squashAux_chain cs false).1) (pyStripChars_within _)
  · exact pyStripChars_head_not_ws _
  · exact pyStripChars_last_not_ws _

/-- Squashing is the identity on a list that is already normalized. -/
theorem squashAux_eq_self : ∀ (cs : List Char),
    (∀ c ∈ cs, c.isWhitespace → c = ' ') → List.Chain' noDbl cs →
    squashAux false cs = cs ∧
      ((∀ h, cs.head? = some h → ¬h.isWhitespace) → squashAux true cs = cs) := by
  intro cs
  induction cs with
  | nil =>
    intro _ _
    exact ⟨rfl, fun _ => rfl⟩
  | cons x rest ih =>
    intro hsp hch
    have hch' : List.Chain' noDbl rest := hch.tail
    have hsp' : ∀ c ∈ rest, c.isWhitespace → c = ' ' :=
      fun c hc => hsp c (List.mem_cons_of_mem _ hc)
    have ihr := ih hsp' hch'
    constructor
    · by_cases hx : x.isWhitespace
      · have hxsp : x = ' ' := hsp x (List.mem_cons_self _ _) hx
        have hhr : ∀ h, rest.head? = some h → ¬h.isWhitespace := by
          intro h hh
          have := (List.chain'_cons'.mp hch).1 h hh
          intro hcon
          exact this ⟨hx, hcon⟩
        simp only [squashAux, if_pos hx, Bool.false_eq_true, if_false]
        rw [ihr.2 hhr, hxsp]
      · simp only [squashAux, if_neg hx]
        rw [ihr.1]
    · intro hhead
      have hx : ¬x.isWhitespace := hhead x rfl
      simp only [squashAux, if_neg hx]
      rw [ihr.1]

/-- Cleaning is the identity on normalized data. -/
theorem cleanChars_of_clean (cs : List Char) (h : CleanData cs) :
    cleanChars cs = cs := by
  obtain ⟨hsp, hch, hh, hl⟩ := h
  unfold cleanChars
  rw [(squashAux_eq_self cs hsp hch).1]
  exact pyStripChars_eq_self cs hh hl

/-- Cleaning is idempotent. -/
theorem cleanChars_idem (cs : List Char) :
    cleanChars (cleanChars cs) = cleanChars cs :=
  cleanChars_of_clean _ (cleanChars_clean cs)

/-- The model sentence tokenizer is insensitive to pre-cleaning. -/
theorem sent_tokenize_clean (s : String) :
    sent_tokenize (_clean_text s) = sent_tokenize s := by
  unfold sent_tokenize _clean_text
  rw [show (String.mk (cleanChars s.data)).data = cleanChars s.data from rfl,
    cleanChars_idem]

/-- `sentencesOf` under the model tokenizer is plain `sent_tokenize`. -/
theorem sentencesOf_model (text : String) :
    sentencesOf modelNLP text = sent_tokenize text := by
  unfold sentencesOf modelNLP
  exact sent_tokenize_clean text

/-! ## Theorems: the sentence splitter -/

/-- Equation for the splitter on the empty input. -/
theorem ssa_nil (acc : List Char) :
    splitSentencesAux [] acc =
      if acc.isEmpty then [] else [String.mk acc.reverse] := rfl

/-- Equation for the splitter on a cons. -/
theorem ssa_cons (c : Char) (rest acc : List Char) :
    splitSentencesAux (c :: rest) acc =
      if c.isWhitespace && acc.isEmpty then
        splitSentencesAux rest acc
      else if isSentEnd c && (rest.isEmpty || headIsWS rest) then
        String.mk (c :: acc).reverse :: splitSentencesAux rest []
      else
        splitSentencesAux rest (c :: acc) := rfl

/-- Sentence-final punctuation is not whitespace. -/
theorem sentEnd_not_ws (c : Char) (h : isSentEnd c = true) : ¬c.isWhitespace = true := by
  unfold isSentEnd at h
  simp only [Bool.or_eq_true, decide_eq_true_eq] at h
  rcases h with (h | h) | h <;> subst h <;> decide

/-- `getLast?` skips a cons with nonempty tail. -/
theorem getLast?_cons_ne (c : Char) (l : List Char) (h : l ≠ []) :
    (c :: l).getLast? = l.getLast? := by
  cases l with
  | nil => exact absurd rfl h
  | cons d t => exact List.getLast?_cons_cons

/-- The splitter returns at least one sentence when the accumulator is
nonempty or some character is not whitespace. -/
theorem aux_ne_nil : ∀ (cs acc : List Char),
    (acc ≠ [] ∨ ∃ c ∈ cs, ¬c.isWhitespace) → splitSentencesAux cs acc ≠ [] := by
  intro cs
  induction cs with
  | nil =>
    intro acc h
    rcases h with h | h
    · rw [ssa_nil]
      have : acc.isEmpty = false := by
        cases acc with
        | nil => exact absurd rfl h
        | cons a t => rfl
      rw [this]
      simp
    · simp at h
  | cons c rest ih =>
    intro acc h
    rw [ssa_cons]
    by_cases h1 : (c.isWhitespace && acc.isEmpty) = true
    · rw [if_pos h1]
      have hca : c.isWhitespace = true ∧ acc.isEmpty = true := by simpa using h1
      have hc : c.isWhitespace := hca.1
      have hacc : acc = [] := by
        have := hca.2
        cases acc with
        | nil => rfl
        | cons a t => simp at this
      apply ih
      right
      rcases h with hl | ⟨d, hd, hdw⟩
      · exact absurd hacc hl
      · rcases List.mem_cons.mp hd with rfl | hd
        · exact absurd hc hdw
        · exact ⟨d, hd, hdw⟩
    · rw [if_neg h1]
      by_cases h2 : (isSentEnd c && (rest.isEmpty || headIsWS rest)) = true
      · rw [if_pos h2]
        simp
      · rw [if_neg h2]
        apply ih
        left
        simp

/-- Every sentence returned by the splitter is an infix of accumulator plus
remaining input. -/
theorem aux_within : ∀ (cs acc : List Char), ∀ s ∈ splitSentencesAux cs acc,
    s.data <:+: (acc.reverse ++ cs) := by
  intro cs
  induction cs with
  | nil =>
    intro acc s hs
    rw [ssa_nil] at hs
    by_cases hacc : acc.isEmpty = true
    · rw [if_pos hacc] at hs
      simp at hs
    · rw [if_neg hacc] at hs
      rcases List.mem_singleton.mp hs with rfl
      rw [List.append_nil]
  | cons c rest ih =>
    intro acc s hs
    rw [ssa_cons] at hs
    by_cases h1 : (c.isWhitespace && acc.isEmpty) = true
    · rw [if_pos h1] at hs
      have hacc : acc = [] := by
        have := (by simpa using h1 : c.isWhitespace = true ∧ acc.isEmpty = true).2
        cases acc with
        | nil => rfl
        | cons a t => simp at this
      subst hacc
      have := ih [] s hs
      simp only [List.reverse_nil, List.nil_append] at this ⊢
      exact this.trans ⟨[c], [], by simp⟩
    · rw [if_neg h1] at hs
      have hsplit : acc.reverse ++ c :: rest = (acc.reverse ++ [c]) ++ rest := by
        rw [List.append_assoc]
        rfl
      by_cases h2 : (isSentEnd c && (rest.isEmpty || headIsWS rest)) = true
      · rw [if_pos h2] at hs
        rcases List.mem_cons.mp hs with rfl | hs
        · rw [show (String.mk (c :: acc).reverse).data = (c :: acc).reverse from rfl,
            List.reverse_cons, hsplit]
          exact ((acc.reverse ++ [c]).prefix_append rest).isInfix
        · have := ih [] s hs
          simp only [List.reverse_nil, List.nil_append] at this
          rw [hsplit]
          exact this.trans ((List.suffix_append (acc.reverse ++ [c]) rest).isInfix)
      · rw [if_neg h2] at hs
        have := ih (c :: acc) s hs
        rwa [List.reverse_cons, ← hsplit] at this

/-- Pieces produced by the splitter are well-formed sentences, given the
accumulator invariant and a non-whitespace final input character. -/
theorem aux_good : ∀ (cs acc : List Char), accInv acc cs →
    (∀ h, cs.getLast? = some h → ¬h.isWhitespace) →
    ∀ s ∈ splitSentencesAux cs acc, GoodPiece s := by
  intro cs
  induction cs with
  | nil =>
    intro acc hinv _ s hs
    rw [ssa_nil] at hs
    by_cases hacc : acc.isEmpty = true
    · rw [if_pos hacc] at hs
      simp at hs
    · rw [if_neg hacc] at hs
      rcases List.mem_singleton.mp hs with rfl
      have haccne : acc.reverse ≠ [] := by
        cases acc with
        | nil => simp at hacc
        | cons a t => simp
      refine ⟨haccne, hinv.1, hinv.2.1, ?_⟩
      intro h hh
      rw [show (String.mk acc.reverse).data = acc.reverse from rfl,
        List.getLast?_reverse] at hh
      exact hinv.2.2.2 rfl h hh
  | cons c rest ih =>
    intro acc hinv hlast s hs
    obtain ⟨inv1, inv2, inv3, inv4⟩ := hinv
    rw [ssa_cons] at hs
    have hlast' : ∀ h, rest.getLast? = some h → ¬h.isWhitespace := by
      intro h hh
      apply hlast h
      have hrne : rest ≠ [] := by
        intro e
        rw [e] at hh
        simp at hh
      rw [getLast?_cons_ne c rest hrne]
      exact hh
    have trivInv : accInv [] rest :=
      ⟨by simp, by simp, by simp, by simp⟩
    by_cases h1 : (c.isWhitespace && acc.isEmpty) = true
    · rw [if_pos h1] at hs
      have hacc : acc = [] := by
        have := (by simpa using h1 : c.isWhitespace = true ∧ acc.isEmpty = true).2
        cases acc with
        | nil => rfl
        | cons a t => simp at this
      subst hacc
      exact ih [] trivInv hlast' s hs
    · rw [if_neg h1] at hs
      by_cases h2 : (isSentEnd c && (rest.isEmpty || headIsWS rest)) = true
      · rw [if_pos h2] at hs
        have hse : isSentEnd c = true :=
          (by simpa using h2 : isSentEnd c = true ∧ (rest.isEmpty || headIsWS rest) = true).1
        rcases List.mem_cons.mp hs with rfl | hs
        · refine ⟨by simp, ?_, ?_, ?_⟩
          · rw [show (String.mk (c :: acc).reverse).data = (c :: acc).reverse from rfl,
              List.reverse_cons, List.chain'_append]
            refine ⟨inv1, List.chain'_singleton _, ?_⟩
            intro x hx y hy
            rw [List.getLast?_reverse] at hx
            simp only [List.head?_cons, Option.mem_def, Option.some.injEq] at hy
            subst hy
            exact inv3 x c (Option.mem_def.mp hx) rfl
          · intro h hh
            rw [show (String.mk (c :: acc).reverse).data = (c :: acc).reverse from rfl,
              List.reverse_cons] at hh
            cases acc with
            | nil =>
              simp only [List.reverse_nil, List.nil_append, List.head?_cons,
                Option.some.injEq] at hh
              rw [← hh]
              exact sentEnd_not_ws c hse
            | cons a t =>
              rw [List.head?_append_of_ne_nil _ (by simp)] at hh
              exact inv2 h hh
          · intro h hh
            rw [show (String.mk (c :: acc).reverse).data = (c :: acc).reverse from rfl,
              List.reverse_cons, List.getLast?_concat] at hh
            have := Option.some.inj hh
            rw [← this]
            exact sentEnd_not_ws c hse
        · exact ih [] trivInv hlast' s hs
      · rw [if_neg h2] at hs
        have hcw : ¬(c.isWhitespace = true ∧ acc.isEmpty = true) := by simpa using h1
        have hbr : ¬(isSentEnd c = true ∧ (rest.isEmpty || headIsWS rest) = true) := by
          simpa using h2
        refine ih (c :: acc) ⟨?_, ?_, ?_, ?_⟩ hlast' s hs
        · rw [List.reverse_cons, List.chain'_append]
          refine ⟨inv1, List.chain'_singleton _, ?_⟩
          intro x hx y hy
          rw [List.getLast?_reverse] at hx
          simp only [List.head?_cons, Option.mem_def, Option.some.injEq] at hy
          subst hy
          exact inv3 x c (Option.mem_def.mp hx) rfl
        · intro h hh
          rw [List.reverse_cons] at hh
          cases acc with
          | nil =>
            simp only [List.reverse_nil, List.nil_append, List.head?_cons,
              Option.some.injEq] at hh
            rw [← hh]
            intro hws
            exact hcw ⟨hws, rfl⟩
          | cons a t =>
            rw [List.head?_append_of_ne_nil _ (by simp)] at hh
            exact inv2 h hh
        · intro a d ha hd
          simp only [List.head?_cons, Option.some.injEq] at ha
          subst ha
          intro hcon
          obtain ⟨hsec, hwsd⟩ := hcon
          apply hbr
          refine ⟨hsec, ?_⟩
          cases rest with
          | nil => simp at hd
          | cons r rs =>
            simp only [List.head?_cons, Option.some.injEq] at hd
            subst hd
            simp [headIsWS, hwsd]
        · intro hre a ha
          simp only [List.head?_cons, Option.some.injEq] at ha
          subst ha
          subst hre
          exact hlast c rfl

/-- Every sentence returned by the model tokenizer is a well-formed piece. -/
theorem sent_tokenize_good (s : String) : ∀ p ∈ sent_tokenize s, GoodPiece p := by
  intro p hp
  exact aux_good (cleanChars s.data) [] ⟨by simp, by simp, by simp, by simp⟩
    (cleanChars_clean s.data).2.2.2 p hp

/-- Every sentence returned by the model tokenizer is an infix of the cleaned
text. -/
theorem sent_tokenize_within (s : String) :
    ∀ p ∈ sent_tokenize s, p.data <:+: cleanChars s.data := by
  intro p hp
  simpa using aux_within (cleanChars s.data) [] p hp

/-- A nonempty list is not `isEmpty`. -/
theorem isEmpty_false {α : Type} (l : List α) (h : l ≠ []) : l.isEmpty = false := by
  cases l with
  | nil => exact absurd rfl h
  | cons a t => rfl

/-- The number of sentences found does not depend on the content of a
nonempty accumulator. -/
theorem aux_len_irrel : ∀ (cs acc acc' : List Char), acc ≠ [] → acc' ≠ [] →
    (splitSentencesAux cs acc).length = (splitSentencesAux cs acc').length := by
  intro cs
  induction cs with
  | nil =>
    intro acc acc' h h'
    rw [ssa_nil, ssa_nil, isEmpty_false acc h, isEmpty_false acc' h']
    rfl
  | cons c rest ih =>
    intro acc acc' h h'
    rw [ssa_cons, ssa_cons, isEmpty_false acc h, isEmpty_false acc' h',
      Bool.and_false]
    simp only [Bool.false_eq_true, if_false]
    by_cases h2 : (isSentEnd c && (rest.isEmpty || headIsWS rest)) = true
    · rw [if_pos h2, if_pos h2]
      simp
    · rw [if_neg h2, if_neg h2]
      exact ih (c :: acc) (c :: acc') (by simp) (by simp)

/-- Starting from a nonempty accumulator yields at most one more sentence than
a fresh start, and at least one sentence. -/
theorem aux_len_le : ∀ (cs acc : List Char), acc ≠ [] →
    (splitSentencesAux cs acc).length ≤ max 1 (splitSentencesAux cs []).length := by
  intro cs
  induction cs with
  | nil =>
    intro acc h
    rw [ssa_nil, isEmpty_false acc h]
    simp
  | cons c rest ih =>
    intro acc h
    rw [ssa_cons, isEmpty_false acc h, Bool.and_false]
    simp only [Bool.false_eq_true, if_false]
    by_cases h2 : (isSentEnd c && (rest.isEmpty || headIsWS rest)) = true
    · rw [if_pos h2]
      have hse : isSentEnd c = true := (by simpa using h2 :
        isSentEnd c = true ∧ (rest.isEmpty || headIsWS rest) = true).1
      have hcw : c.isWhitespace = false := by
        have := sentEnd_not_ws c hse
        simpa using this
      rw [ssa_cons]
      simp only [List.isEmpty_nil, Bool.and_true, hcw, Bool.false_eq_true, if_false]
      rw [if_pos h2]
      simp
    · rw [if_neg h2]
      by_cases hws : c.isWhitespace = true
      · rw [ssa_cons]
        simp only [List.isEmpty_nil, Bool.and_true, hws, if_true]
        exact ih (c :: acc) (by simp)
      · rw [ssa_cons]
        simp only [List.isEmpty_nil, Bool.and_true, hws, Bool.false_eq_true, if_false]
        rw [if_neg h2]
        rw [aux_len_irrel rest (c :: acc) [c] (by simp) (by simp)]
        exact le_max_right _ _

/-- Input without an internal sentence break yields at most one sentence. -/
theorem aux_chain_le_one : ∀ (cs acc : List Char), List.Chain' okPair cs →
    (splitSentencesAux cs acc).length ≤ 1 := by
  intro cs
  induction cs with
  | nil =>
    intro acc _
    rw [ssa_nil]
    by_cases h : acc.isEmpty = true
    · rw [if_pos h]
      simp
    · rw [if_neg h]
      simp
  | cons c rest ih =>
    intro acc hch
    rw [ssa_cons]
    by_cases h1 : (c.isWhitespace && acc.isEmpty) = true
    · rw [if_pos h1]
      exact ih acc hch.tail
    · rw [if_neg h1]
      by_cases h2 : (isSentEnd c && (rest.isEmpty || headIsWS rest)) = true
      · rw [if_pos h2]
        have hh2 : isSentEnd c = true ∧ (rest.isEmpty || headIsWS rest) = true := by
          simpa using h2
        have hrest : rest = [] := by
          cases rest with
          | nil => rfl
          | cons r rs =>
            exfalso
            have hok : ¬(isSentEnd c = true ∧ r.isWhitespace = true) :=
              (List.chain'_cons.mp hch).1
            have hw : r.isWhitespace = true := by simpa [headIsWS] using hh2.2
            exact hok ⟨hh2.1, hw⟩
        subst hrest
        simp [ssa_nil]
      · rw [if_neg h2]
        exact ih (c :: acc) hch.tail

/-- Scanning a well-formed piece followed by a space adds at most one
sentence. -/
theorem aux_piece_bound : ∀ (cs acc tail : List Char), List.Chain' okPair cs →
    (acc = [] → ∀ h, cs.head? = some h → ¬h.isWhitespace) →
    (splitSentencesAux (cs ++ ' ' :: tail) acc).length ≤
      1 + (splitSentencesAux tail []).length := by
  intro cs
  induction cs with
  | nil =>
    intro acc tail _ hhead
    simp only [List.nil_append]
    by_cases hacc : acc = []
    · subst hacc
      rw [ssa_cons]
      have hc : ((' ').isWhitespace && (List.isEmpty ([] : List Char))) = true := by decide
      rw [if_pos hc]
      omega
    · rw [ssa_cons, isEmpty_false acc hacc, Bool.and_false]
      simp only [Bool.false_eq_true, if_false]
      have h2 : (isSentEnd ' ' && (tail.isEmpty || headIsWS tail)) = false := by
        simp [isSentEnd]
      rw [h2]
      simp only [Bool.false_eq_true, if_false]
      have := aux_len_le tail (' ' :: acc) (by simp)
      have hmax : max 1 (splitSentencesAux tail []).length ≤
          1 + (splitSentencesAux tail []).length := by omega
      omega
  | cons c cs' ih =>
    intro acc tail hch hhead
    rw [List.cons_append, ssa_cons]
    by_cases h1 : (c.isWhitespace && acc.isEmpty) = true
    · exfalso
      have hca : c.isWhitespace = true ∧ acc.isEmpty = true := by simpa using h1
      have hacc : acc = [] := by
        cases acc with
        | nil => rfl
        | cons a t => simp at hca
      exact hhead hacc c rfl hca.1
    · rw [if_neg h1]
      by_cases h2 : (isSentEnd c && ((cs' ++ ' ' :: tail).isEmpty ||
          headIsWS (cs' ++ ' ' :: tail))) = true
      · rw [if_pos h2]
        have hh2 : isSentEnd c = true ∧
            ((cs' ++ ' ' :: tail).isEmpty || headIsWS (cs' ++ ' ' :: tail)) = true := by
          simpa using h2
        have hcs' : cs' = [] := by
          cases cs' with
          | nil => rfl
          | cons d ds =>
            exfalso
            have hok : ¬(isSentEnd c = true ∧ d.isWhitespace = true) :=
              (List.chain'_cons.mp hch).1
            have hw : d.isWhitespace = true := by simpa [headIsWS] using hh2.2
            exact hok ⟨hh2.1, hw⟩
        subst hcs'
        simp only [List.nil_append, List.length_cons]
        rw [ssa_cons]
        have : ((' ').isWhitespace && (List.isEmpty ([] : List Char))) = true := by
          decide
        rw [if_pos this]
        omega
      · rw [if_neg h2]
        exact ih (c :: acc) tail hch.tail (by simp)

/-- Joining well-formed pieces with single spaces re-tokenizes into at most
one sentence per piece. -/
theorem join_pieces_bound : ∀ (pieces : List String),
    (∀ p ∈ pieces, GoodPiece p) →
    (splitSentencesAux (joinSep " " pieces).data []).length ≤ pieces.length := by
  intro pieces
  induction pieces with
  | nil =>
    intro _
    simp [joinSep, ssa_nil]
  | cons p rest ih =>
    intro hgood
    cases rest with
    | nil =>
      have := (hgood p (List.mem_cons_self _ _)).2.1
      simpa [joinSep] using aux_chain_le_one p.data [] this
    | cons q rs =>
      have hjoin : (joinSep " " (p :: q :: rs)).data =
          p.data ++ ' ' :: (joinSep " " (q :: rs)).data := by
        rw [show joinSep " " (p :: q :: rs) = p ++ " " ++ joinSep " " (q :: rs) from rfl]
        rw [data_append, data_append, List.append_assoc]
        rfl
      rw [hjoin]
      have hp := hgood p (List.mem_cons_self _ _)
      have hbound := aux_piece_bound p.data [] (joinSep " " (q :: rs)).data hp.2.1
        (fun _ => hp.2.2.1)
      have hrest := ih (fun x hx => hgood x (List.mem_cons_of_mem _ hx))
      calc (splitSentencesAux (p.data ++ ' ' :: (joinSep " " (q :: rs)).data) []).length
          ≤ 1 + (splitSentencesAux (joinSep " " (q :: rs)).data []).length := hbound
        _ ≤ 1 + (q :: rs).length := by omega
        _ ≤ (p :: q :: rs).length := by
            simp only [List.length_cons]
            omega

/-! ## Theorems: insertion-ordered dictionaries -/

/-- Lookup after a dict assignment. -/
theorem alookup_insertOrUpdate {β : Type} : ∀ (m : List (String × β)) (k : String)
    (v : β) (k' : String),
    alookup (insertOrUpdate m k v) k' = if k = k' then some v else alookup m k' := by
  intro m
  induction m with
  | nil =>
    intro k v k'
    simp [insertOrUpdate, alookup]
  | cons e rest ih =>
    intro k v k'
    obtain ⟨k0, v0⟩ := e
    by_cases h0 : k0 = k
    · subst h0
      simp only [insertOrUpdate, if_pos rfl, alookup]
      by_cases h' : k0 = k'
      · subst h'
        simp [alookup]
      · simp [alookup, h']
    · simp only [insertOrUpdate, if_neg h0, alookup]
      by_cases h' : k0 = k'
      · subst h'
        have hkk : k ≠ k0 := fun e => h0 e.symm
        simp [alookup, hkk]
      · simp only [if_neg h']
        rw [ih k v k']

/-- Lookup fails exactly off the key list. -/
theorem alookup_eq_none_iff {β : Type} : ∀ (m : List (String × β)) (k : String),
    alookup m k = none ↔ k ∉ m.map Prod.fst := by
  intro m
  induction m with
  | nil =>
    intro k
    simp [alookup]
  | cons e rest ih =>
    intro k
    obtain ⟨k0, v0⟩ := e
    by_cases h0 : k0 = k
    · subst h0
      simp [alookup]
    · simp only [alookup, if_neg h0, List.map_cons, List.mem_cons]
      rw [ih]
      constructor
      · intro h hcon
        rcases hcon with rfl | hcon
        · exact h0 rfl
        · exact h hcon
      · intro h hcon
        exact h (Or.inr hcon)

/-- Keys after a dict assignment. -/
theorem mem_keys_insertOrUpdate {β : Type} : ∀ (m : List (String × β)) (k : String)
    (v : β) (k' : String),
    k' ∈ (insertOrUpdate m k v).map Prod.fst ↔ k' = k ∨ k' ∈ m.map Prod.fst := by
  intro m
  induction m with
  | nil =>
    intro k v k'
    simp [insertOrUpdate, eq_comm]
  | cons e rest ih =>
    intro k v k'
    obtain ⟨k0, v0⟩ := e
    by_cases h0 : k0 = k
    · subst h0
      have he : insertOrUpdate ((k0, v0) :: rest) k0 v = (k0, v) :: rest := by
        simp [insertOrUpdate]
      rw [he]
      simp
    · simp only [insertOrUpdate, if_neg h0, List.map_cons, List.mem_cons, ih]
      tauto

/-- Assignment preserves distinctness of keys. -/
theorem nodup_keys_insertOrUpdate {β : Type} : ∀ (m : List (String × β)) (k : String)
    (v : β), (m.map Prod.fst).Nodup → ((insertOrUpdate m k v).map Prod.fst).Nodup := by
  intro m
  induction m with
  | nil =>
    intro k v _
    simp [insertOrUpdate]
  | cons e rest ih =>
    intro k v hnd
    obtain ⟨k0, v0⟩ := e
    simp only [List.map_cons, List.nodup_cons] at hnd
    by_cases h0 : k0 = k
    · subst h0
      have he : insertOrUpdate ((k0, v0) :: rest) k0 v = (k0, v) :: rest := by
        simp [insertOrUpdate]
      rw [he]
      simp only [List.map_cons, List.nodup_cons]
      exact hnd
    · simp only [insertOrUpdate, if_neg h0, List.map_cons, List.nodup_cons]
      refine ⟨?_, ih k v hnd.2⟩
      intro hcon
      rcases (mem_keys_insertOrUpdate rest k v k0).mp hcon with rfl | hcon
      · exact h0 rfl
      · exact hnd.1 hcon

/-- Assigning a fresh key lengthens the dict by one. -/
theorem length_insertOrUpdate_new {β : Type} : ∀ (m : List (String × β)) (k : String)
    (v : β), alookup m k = none → (insertOrUpdate m k v).length = m.length + 1 := by
  intro m
  induction m with
  | nil =>
    intro k v _
    rfl
  | cons e rest ih =>
    intro k v hnone
    obtain ⟨k0, v0⟩ := e
    simp only [alookup] at hnone
    by_cases h0 : k0 = k
    · rw [if_pos h0] at hnone
      exact absurd hnone (by simp)
    · rw [if_neg h0] at hnone
      simp only [insertOrUpdate, if_neg h0, List.length_cons, ih k v hnone]

/-! ## Theorems: the stable descending sort -/

/-- Inserting is a permutation of consing. -/
theorem insertDesc_perm {α β : Type} [LinearOrder β] (x : α × β) :
    ∀ (l : List (α × β)), List.Perm (insertDesc x l) (x :: l) := by
  intro l
  induction l with
  | nil => exact List.Perm.refl _
  | cons y ys ih =>
    by_cases h : x.2 ≤ y.2
    · have h1 : insertDesc x (y :: ys) = y :: insertDesc x ys := by
        simp [insertDesc, h]
      rw [h1]
      exact (ih.cons y).trans (List.Perm.swap x y ys)
    · have h1 : insertDesc x (y :: ys) = x :: y :: ys := by
        simp [insertDesc, h]
      rw [h1]

/-- The fold underlying `sortDesc` permutes its input onto the accumulator. -/
theorem sortDesc_fold_perm {α β : Type} [LinearOrder β] :
    ∀ (l acc : List (α × β)),
      List.Perm (l.foldl (fun a x => insertDesc x a) acc) (l ++ acc) := by
  intro l
  induction l with
  | nil =>
    intro acc
    exact List.Perm.refl _
  | cons x rest ih =>
    intro acc
    have step1 := ih (insertDesc x acc)
    have step2 : List.Perm (rest ++ insertDesc x acc) (rest ++ (x :: acc)) :=
      List.Perm.append_left rest (insertDesc_perm x acc)
    have step3 : List.Perm (rest ++ x :: acc) (x :: (rest ++ acc)) :=
      List.perm_middle
    exact (step1.trans step2).trans step3

/-- `sortDesc` is a permutation. -/
theorem sortDesc_perm {α β : Type} [LinearOrder β] (l : List (α × β)) :
    List.Perm (sortDesc l) l := by
  unfold sortDesc
  simpa using sortDesc_fold_perm l []

/-! ## Theorems: the sentence-score dictionary -/

/-- A sentence the scorer skips is absent from the dict. -/
theorem buildSentScores_alookup_none (f : String → Option ℚ) (s : String)
    (hfs : f s = none) : ∀ (l : List String) (m : List (String × ℚ)),
    alookup (buildSentScores f l m) s = alookup m s := by
  intro l
  induction l with
  | nil =>
    intro m
    rfl
  | cons t rest ih =>
    intro m
    cases hft : f t with
    | some v' =>
      rw [show buildSentScores f (t :: rest) m =
          buildSentScores f rest (insertOrUpdate m t v') from by
        simp [buildSentScores, hft]]
      rw [ih, alookup_insertOrUpdate]
      have hts : t ≠ s := by
        intro e
        rw [e, hfs] at hft
        exact absurd hft (by simp)
      rw [if_neg hts]
    | none =>
      rw [show buildSentScores f (t :: rest) m = buildSentScores f rest m from by
        simp [buildSentScores, hft]]
      exact ih m

/-- A scored sentence is stored with its (key-determined) score. -/
theorem buildSentScores_alookup_some (f : String → Option ℚ) (s : String) (v : ℚ)
    (hfs : f s = some v) : ∀ (l : List String) (m : List (String × ℚ)),
    alookup (buildSentScores f l m) s =
      if s ∈ l then some v else alookup m s := by
  intro l
  induction l with
  | nil =>
    intro m
    simp [buildSentScores]
  | cons t rest ih =>
    intro m
    cases hft : f t with
    | some v' =>
      rw [show buildSentScores f (t :: rest) m =
          buildSentScores f rest (insertOrUpdate m t v') from by
        simp [buildSentScores, hft]]
      rw [ih]
      by_cases hsl : s ∈ rest
      · rw [if_pos hsl, if_pos (List.mem_cons_of_mem _ hsl)]
      · rw [if_neg hsl, alookup_insertOrUpdate]
        by_cases hts : t = s
        · subst hts
          rw [hfs] at hft
          have : v' = v := by
            have := Option.some.inj hft
            exact this.symm
          subst this
          rw [if_pos rfl, if_pos (List.mem_cons_self _ _)]
        · rw [if_neg hts, if_neg ?_]
          intro hcon
          rcases List.mem_cons.mp hcon with rfl | hcon
          · exact hts rfl
          · exact hsl hcon
    | none =>
      rw [show buildSentScores f (t :: rest) m = buildSentScores f rest m from by
        simp [buildSentScores, hft]]
      rw [ih]
      by_cases hsl : s ∈ rest
      · rw [if_pos hsl, if_pos (List.mem_cons_of_mem _ hsl)]
      · rw [if_neg hsl, if_neg ?_]
        intro hcon
        rcases List.mem_cons.mp hcon with rfl | hcon
        · rw [hfs] at hft
          exact absurd hft (by simp)
        · exact hsl hcon

/-- Keys of the score dict come from the scored sentences or the seed. -/
theorem buildSentScores_keys (f : String → Option ℚ) : ∀ (l : List String)
    (m : List (String × ℚ)) (s : String),
    s ∈ (buildSentScores f l m).map Prod.fst → s ∈ l ∨ s ∈ m.map Prod.fst := by
  intro l
  induction l with
  | nil =>
    intro m s h
    exact Or.inr h
  | cons t rest ih =>
    intro m s h
    cases hft : f t with
    | some v' =>
      rw [show buildSentScores f (t :: rest) m =
          buildSentScores f rest (insertOrUpdate m t v') from by
        simp [buildSentScores, hft]] at h
      rcases ih _ s h with h1 | h1
      · exact Or.inl (List.mem_cons_of_mem _ h1)
      · rcases (mem_keys_insertOrUpdate m t v' s).mp h1 with rfl | h2
        · exact Or.inl (List.mem_cons_self _ _)
        · exact Or.inr h2
    | none =>
      rw [show buildSentScores f (t :: rest) m = buildSentScores f rest m from by
        simp [buildSentScores, hft]] at h
      rcases ih m s h with h1 | h1
      · exact Or.inl (List.mem_cons_of_mem _ h1)
      · exact Or.inr h1

/-- The score dict has distinct keys. -/
theorem buildSentScores_nodup (f : String → Option ℚ) : ∀ (l : List String)
    (m : List (String × ℚ)), (m.map Prod.fst).Nodup →
    ((buildSentScores f l m).map Prod.fst).Nodup := by
  intro l
  induction l with
  | nil =>
    intro m h
    exact h
  | cons t rest ih =>
    intro m h
    cases hft : f t with
    | some v' =>
      rw [show buildSentScores f (t :: rest) m =
          buildSentScores f rest (insertOrUpdate m t v') from by
        simp [buildSentScores, hft]]
      exact ih _ (nodup_keys_insertOrUpdate m t v' h)
    | none =>
      rw [show buildSentScores f (t :: rest) m = buildSentScores f rest m from by
        simp [buildSentScores, hft]]
      exact ih m h

/-- With distinct fresh sentences, the dict size counts the scored ones. -/
theorem buildSentScores_length (f : String → Option ℚ) : ∀ (l : List String)
    (m : List (String × ℚ)), l.Nodup → (∀ s ∈ l, alookup m s = none) →
    (buildSentScores f l m).length =
      m.length + (l.filter (fun s => (f s).isSome)).length := by
  intro l
  induction l with
  | nil =>
    intro m _ _
    simp [buildSentScores]
  | cons t rest ih =>
    intro m hnd hfresh
    have hndr : rest.Nodup := (List.nodup_cons.mp hnd).2
    have htr : t ∉ rest := (List.nodup_cons.mp hnd).1
    cases hft : f t with
    | some v' =>
      rw [show buildSentScores f (t :: rest) m =
          buildSentScores f rest (insertOrUpdate m t v') from by
        simp [buildSentScores, hft]]
      have hfresh' : ∀ s ∈ rest, alookup (insertOrUpdate m t v') s = none := by
        intro s hs
        rw [alookup_insertOrUpdate]
        have : t ≠ s := by
          intro e
          exact htr (e ▸ hs)
        rw [if_neg this]
        exact hfresh s (List.mem_cons_of_mem _ hs)
      rw [ih _ hndr hfresh',
        length_insertOrUpdate_new m t v' (hfresh t (List.mem_cons_self _ _))]
      have : (List.filter (fun s => (f s).isSome) (t :: rest)) =
          t :: List.filter (fun s => (f s).isSome) rest := by
        simp [List.filter_cons, hft]
      rw [this]
      simp only [List.length_cons]
      omega
    | none =>
      rw [show buildSentScores f (t :: rest) m = buildSentScores f rest m from by
        simp [buildSentScores, hft]]
      rw [ih m hndr (fun s hs => hfresh s (List.mem_cons_of_mem _ hs))]
      have : (List.filter (fun s => (f s).isSome) (t :: rest)) =
          List.filter (fun s => (f s).isSome) rest := by
        simp [List.filter_cons, hft]
      rw [this]

/-! ## Theorems: the frequency table -/

/-- `bump` preserves strictly positive counts. -/
theorem bump_pos : ∀ (m : List (String × Nat)) (w : String),
    (∀ p ∈ m, 1 ≤ p.2) → ∀ p ∈ bump m w, 1 ≤ p.2 := by
  intro m
  induction m with
  | nil =>
    intro w _ p hp
    rcases List.mem_singleton.mp hp with rfl
    exact le_refl 1
  | cons e rest ih =>
    intro w hm p hp
    obtain ⟨k, v⟩ := e
    by_cases hk : k = w
    · rw [show bump ((k, v) :: rest) w = (k, v + 1) :: rest from by simp [bump, hk]] at hp
      rcases List.mem_cons.mp hp with rfl | hp
      · simp
      · exact hm p (List.mem_cons_of_mem _ hp)
    · rw [show bump ((k, v) :: rest) w = (k, v) :: bump rest w from by
        simp [bump, hk]] at hp
      rcases List.mem_cons.mp hp with rfl | hp
      · exact hm _ (List.mem_cons_self _ _)
      · exact ih w (fun q hq => hm q (List.mem_cons_of_mem _ hq)) p hp

/-- The counting fold preserves strictly positive counts. -/
theorem foldl_bump_pos (stop : List String) : ∀ (ws : List String)
    (m : List (String × Nat)), (∀ p ∈ m, 1 ≤ p.2) →
    ∀ p ∈ ws.foldl
      (fun acc w => if pyIsAlnum w && !(stop.contains w) then bump acc w else acc) m,
      1 ≤ p.2 := by
  intro ws
  induction ws with
  | nil =>
    intro m hm p hp
    exact hm p hp
  | cons w rest ih =>
    intro m hm p hp
    rw [List.foldl_cons] at hp
    by_cases hc : (pyIsAlnum w && !(stop.contains w)) = true
    · rw [if_pos hc] at hp
      exact ih _ (bump_pos m w hm) p hp
    · rw [if_neg hc] at hp
      exact ih m hm p hp

/-- Every count in the frequency table is at least one. -/
theorem freqOf_pos (nlp : NLP) (text : String) :
    ∀ p ∈ freqOf nlp text, 1 ≤ p.2 := by
  intro p hp
  exact foldl_bump_pos nlp.stopWords (wordsOf nlp text) [] (by simp) p hp

/-- `maxVal` dominates the accumulator and every count. -/
theorem maxVal_fold_ge : ∀ (l : List (String × Nat)) (a : Nat),
    a ≤ l.foldl (fun m p => max m p.2) a ∧
      ∀ p ∈ l, p.2 ≤ l.foldl (fun m p => max m p.2) a := by
  intro l
  induction l with
  | nil =>
    intro a
    exact ⟨le_refl a, by simp⟩
  | cons q rest ih =>
    intro a
    rw [List.foldl_cons]
    constructor
    · exact le_trans (le_max_left a q.2) (ih (max a q.2)).1
    · intro p hp
      rcases List.mem_cons.mp hp with rfl | hp
      · exact le_trans (le_max_right a p.2) (ih (max a p.2)).1
      · exact (ih (max a q.2)).2 p hp

/-- Every count is at most the maximum count. -/
theorem maxVal_ge (l : List (String × Nat)) : ∀ p ∈ l, p.2 ≤ maxVal l :=
  (maxVal_fold_ge l 0).2

/-- Normalized frequencies lie in `(0, 1]`. -/
theorem freqNOf_mem_unit (nlp : NLP) (text : String) :
    ∀ p ∈ freqNOf nlp text, 0 < p.2 ∧ p.2 ≤ 1 := by
  intro p hp
  unfold freqNOf at hp
  obtain ⟨q, hq, hpq⟩ := List.mem_map.mp hp
  have h1 : 1 ≤ q.2 := freqOf_pos nlp text q hq
  have h2 : q.2 ≤ maxVal (freqOf nlp text) := maxVal_ge _ q hq
  have hmx : 1 ≤ maxVal (freqOf nlp text) := le_trans h1 h2
  have hq2 : p.2 = (q.2 : ℚ) / ((maxVal (freqOf nlp text)) : ℚ) := by
    rw [← hpq]
  have hmxq : (0 : ℚ) < ((maxVal (freqOf nlp text)) : ℚ) := by
    exact_mod_cast lt_of_lt_of_le Nat.zero_lt_one hmx
  constructor
  · rw [hq2]
    apply div_pos _ hmxq
    exact_mod_cast lt_of_lt_of_le Nat.zero_lt_one h1
  · rw [hq2, div_le_one hmxq]
    exact_mod_cast h2

/-! ## Theorems: the scoring loop -/

/-- The scoring loop computes the sum of normalized frequencies over
alphanumeric tokens together with their number. -/
theorem scoreLoop_eq (fr : List (String × ℚ)) : ∀ (ws : List String) (sc : ℚ) (k : Nat),
    scoreLoop fr ws sc k =
      (sc + ((ws.filter pyIsAlnum).map (tokenNormFreq fr)).sum,
        k + (ws.filter pyIsAlnum).length) := by
  intro ws
  induction ws with
  | nil =>
    intro sc k
    simp [scoreLoop]
  | cons w rest ih =>
    intro sc k
    by_cases hw : pyIsAlnum w = true
    · cases hlk : alookup fr w with
      | some f =>
        rw [show scoreLoop fr (w :: rest) sc k = scoreLoop fr rest (sc + f) (k + 1) from by
          simp [scoreLoop, hw, hlk]]
        rw [ih]
        have hfil : (w :: rest).filter pyIsAlnum = w :: rest.filter pyIsAlnum := by
          simp [List.filter_cons, hw]
        rw [hfil]
        simp only [List.map_cons, List.sum_cons, List.length_cons]
        have hν : tokenNormFreq fr w = f := by
          simp [tokenNormFreq, hlk]
        rw [hν, Prod.mk.injEq]
        constructor
        · ring
        · omega
      | none =>
        rw [show scoreLoop fr (w :: rest) sc k = scoreLoop fr rest sc (k + 1) from by
          simp [scoreLoop, hw, hlk]]
        rw [ih]
        have hfil : (w :: rest).filter pyIsAlnum = w :: rest.filter pyIsAlnum := by
          simp [List.filter_cons, hw]
        rw [hfil]
        simp only [List.map_cons, List.sum_cons, List.length_cons]
        have hν : tokenNormFreq fr w = 0 := by
          simp [tokenNormFreq, hlk]
        rw [hν, Prod.mk.injEq]
        constructor
        · ring
        · omega
    · rw [show scoreLoop fr (w :: rest) sc k = scoreLoop fr rest sc k from by
        simp [scoreLoop, hw]]
      rw [ih]
      have hfil : (w :: rest).filter pyIsAlnum = rest.filter pyIsAlnum := by
        simp [List.filter_cons, hw]
      rw [hfil]

/-- The per-sentence score in spec form: mean normalized frequency of the
alphanumeric tokens, undefined when there are none. -/
theorem sentScore_eq (nlp : NLP) (fr : List (String × ℚ)) (s : String) :
    sentScore nlp fr s =
      if 0 < alnumCount nlp s then
        some ((((alnumTokens nlp s).map (tokenNormFreq fr)).sum) /
          ((alnumCount nlp s : ℚ)))
      else none := by
  unfold sentScore
  rw [scoreLoop_eq]
  simp [alnumTokens, alnumCount]

/-! ## Theorems: branch equations of `summarize_text` -/

/-- Blank input returns the empty string (src/summarizer.py lines 24-25). -/
theorem summarize_eq_empty (nlp : NLP) (text : String) ( ratio : ℚ)
    (h : pyStrip text = "") : summarize_text nlp text ratio = "" := by
  unfold summarize_text
  rw [if_pos h]

/-- At most one sentence returns the cleaned text (src/summarizer.py
lines 29-30). -/
theorem summarize_eq_single (nlp : NLP) (text : String) ( ratio : ℚ)
    (h : pyStrip text ≠ "") (h1 : (sentencesOf nlp text).length ≤ 1) :
    summarize_text nlp text ratio = _clean_text text := by
  unfold summarize_text
  rw [if_neg h, if_pos h1]

/-- The main path joins the selected sentences with single spaces
(src/summarizer.py lines 36-38, 54-60). -/
theorem summarize_eq_main (nlp : NLP) (text : String) ( ratio : ℚ)
    (h : pyStrip text ≠ "") (h1 : ¬(sentencesOf nlp text).length ≤ 1) :
    summarize_text nlp text ratio = joinSep " " (summary_sentences nlp text ratio) := by
  unfold summarize_text
  rw [if_neg h, if_neg h1]

/-- The selected sentences form a subsequence of the segmented sentences, in
document order. -/
theorem summary_sentences_sublist (nlp : NLP) (text : String) ( ratio : ℚ) :
    (summary_sentences nlp text ratio).Sublist (sentencesOf nlp text) := by
  unfold summary_sentences
  split_ifs with h1 h2
  · exact List.take_sublist _ _
  · exact List.take_sublist _ _
  · exact List.filter_sublist _

/-- Each selected sentence is one of the segmented sentences. -/
theorem summary_sentences_mem (nlp : NLP) (text : String) ( ratio : ℚ) :
    ∀ s ∈ summary_sentences nlp text ratio, s ∈ sentencesOf nlp text :=
  fun s hs => (summary_sentences_sublist nlp text ratio).subset hs

/-- At least one sentence is always selected. -/
theorem summary_sentences_ne_nil (nlp : NLP) (text : String) ( ratio : ℚ)
    (h1 : 1 ≤ (sentencesOf nlp text).length) :
    summary_sentences nlp text ratio ≠ [] := by
  have htake : (sentencesOf nlp text).take (selectN nlp text ratio) ≠ [] := by
    have hlen : ((sentencesOf nlp text).take (selectN nlp text ratio)).length =
        min (selectN nlp text ratio) (sentencesOf nlp text).length :=
      List.length_take _ _
    have hsel : 1 ≤ selectN nlp text ratio := le_max_left _ _
    intro e
    rw [e] at hlen
    simp only [List.length_nil] at hlen
    omega
  unfold summary_sentences
  split_ifs with hf hsel
  · exact htake
  · exact htake
  · intro e
    rw [e] at hsel
    simp at hsel

/-! ## Theorems: non-emptiness of outputs -/

/-- A string with characters is not the empty string. -/
theorem string_ne_empty_of_data (s : String) (h : s.data ≠ []) : s ≠ "" := by
  intro e
  rw [e] at h
  exact h rfl

/-- Cleaning a non-blank text yields a nonempty string. -/
theorem _clean_text_ne_empty (text : String) (h : pyStrip text ≠ "") :
    _clean_text text ≠ "" := by
  apply string_ne_empty_of_data
  rw [show (_clean_text text).data = cleanChars text.data from rfl]
  intro hnil
  apply h
  rw [pyStrip_eq_empty_iff]
  by_contra hcon
  push_neg at hcon
  obtain ⟨c, hc, hcw⟩ := hcon
  have hex : ∃ d ∈ squashAux false text.data, ¬d.isWhitespace :=
    squashAux_exists_nonws text.data false ⟨c, hc, by simpa using hcw⟩
  obtain ⟨d, hd, hdw⟩ := hex
  have := (pyStripChars_eq_nil_iff (squashAux false text.data)).mp hnil d hd
  exact hdw this

/-- Joining nonempty pieces yields a nonempty string. -/
theorem joinSep_ne_empty (pieces : List String) (hne : pieces ≠ [])
    (hdata : ∀ p ∈ pieces, p.data ≠ []) : joinSep " " pieces ≠ "" := by
  cases pieces with
  | nil => exact absurd rfl hne
  | cons p rest =>
    cases rest with
    | nil =>
      exact string_ne_empty_of_data p (hdata p (List.mem_cons_self _ _))
    | cons q rs =>
      apply string_ne_empty_of_data
      rw [show joinSep " " (p :: q :: rs) = p ++ " " ++ joinSep " " (q :: rs) from rfl,
        data_append, data_append]
      intro hcon
      have := (List.append_eq_nil.mp hcon).1
      have := (List.append_eq_nil.mp this).1
      exact hdata p (List.mem_cons_self _ _) this

/-- Under the model tokenizer a non-blank text summarizes to a nonempty
string. -/
theorem summarize_model_ne_empty (text : String) ( ratio : ℚ)
    (h : pyStrip text ≠ "") : summarize_text modelNLP text ratio ≠ "" := by
  by_cases h1 : (sentencesOf modelNLP text).length ≤ 1
  · rw [summarize_eq_single modelNLP text ratio h h1]
    exact _clean_text_ne_empty text h
  · rw [summarize_eq_main modelNLP text ratio h h1]
    apply joinSep_ne_empty
    · apply summary_sentences_ne_nil
      omega
    · intro p hp
      have hmem : p ∈ sent_tokenize text := by
        rw [← sentencesOf_model]
        exact summary_sentences_mem modelNLP text ratio p hp
      exact (sent_tokenize_good text p hmem).1

/-- The model summarizer returns the empty string exactly on blank input. -/
theorem summarize_model_empty_iff (text : String) ( ratio : ℚ) :
    summarize_text modelNLP text ratio = "" ↔ pyStrip text = "" := by
  constructor
  · intro h
    by_contra hcon
    exact summarize_model_ne_empty text ratio hcon h
  · intro h
    exact summarize_eq_empty modelNLP text ratio h

/-! ## Theorems: ratio clamping -/

/-- The clamp is idempotent. -/
theorem clamp01_idem (q : ℚ) : clamp01 (clamp01 q) = clamp01 q :=
  clamp01_eq_self _ (clamp01_bounds q).1 (clamp01_bounds q).2

/-- `selectN` only sees the clamped ratio. -/
theorem selectN_clamp (nlp : NLP) (text : String) (q : ℚ) :
    selectN nlp text (clamp01 q) = selectN nlp text q := by
  unfold selectN
  rw [clamp01_idem]

/-- `topOf` only sees the clamped ratio. -/
theorem topOf_clamp (nlp : NLP) (text : String) (q : ℚ) :
    topOf nlp text (clamp01 q) = topOf nlp text q := by
  unfold topOf
  rw [selectN_clamp]

/-- The selection only sees the clamped ratio. -/
theorem summary_sentences_clamp (nlp : NLP) (text : String) (q : ℚ) :
    summary_sentences nlp text (clamp01 q) = summary_sentences nlp text q := by
  unfold summary_sentences
  rw [selectN_clamp, topOf_clamp]

/-- The summarizer only sees the clamped ratio. -/
theorem summarize_clamp (nlp : NLP) (text : String) (q : ℚ) :
    summarize_text nlp text (clamp01 q) = summarize_text nlp text q := by
  unfold summarize_text
  rw [summary_sentences_clamp]

/-! ## Claim C2 -/

/-- C2, counterexample: `summarize_text` is claimed total for every ratio
value including malformed ones, but on non-blank text with a non-numeric
ratio the `float(ratio)` call on src/summarizer.py line 26 raises instead of
falling back to the default 0.3. -/
theorem c2_counterexample :
    summarize_text_total modelNLP "Cats are mammals. Dogs bark." RatioInput.malformed =
      Except.error "could not convert ratio to float" := by
  rfl

/-- C2, amended: for every text and every numeric ratio value,
`summarize_text` returns a string without raising; the effective ratio is
clamped into [0.1, 0.9]; and (for the model tokenizer) the result is the
empty string exactly when the input text is empty or whitespace-only.
Non-numeric ratio values make `summarize_text` itself raise — the fallback to
the default 0.3 lives in the excluded web layer (app.py), not here. -/
theorem c2_total_clamped_empty :
    (∀ (nlp : NLP) (text : String) (q : ℚ),
      summarize_text_total nlp text (RatioInput.num q) =
        Except.ok (summarize_text nlp text q)) ∧
    (∀ (nlp : NLP) (text : String) (q : ℚ),
      summarize_text_total nlp text (RatioInput.numStr q) =
        Except.ok (summarize_text nlp text q)) ∧
    (∀ (q : ℚ), 1 / 10 ≤ clamp01 q ∧ clamp01 q ≤ 9 / 10) ∧
    (∀ (nlp : NLP) (text : String) (q : ℚ),
      summarize_text nlp text (clamp01 q) = summarize_text nlp text q) ∧
    (∀ (text : String) (q : ℚ),
      (summarize_text modelNLP text q = "" ↔ pyStrip text = "")) := by
  refine ⟨?_, ?_, clamp01_bounds, summarize_clamp, summarize_model_empty_iff⟩
  · intro nlp text q
    by_cases h : pyStrip text = ""
    · unfold summarize_text_total
      rw [if_pos h, summarize_eq_empty nlp text q h]
    · unfold summarize_text_total
      rw [if_neg h]
      rfl
  · intro nlp text q
    by_cases h : pyStrip text = ""
    · unfold summarize_text_total
      rw [if_pos h, summarize_eq_empty nlp text q h]
    · unfold summarize_text_total
      rw [if_neg h]
      rfl

/-! ## Claim C3 -/

/-- C3: for every tokenizer, input text and ratio, when the text segments
into at least two sentences the summary is the space-join of a selection that
is a subsequence of the segmented sentences — the selected sentences appear
in their original document order, not in score order. -/
theorem c3_document_order (nlp : NLP) (text : String) ( ratio : ℚ)
    (hne : pyStrip text ≠ "") (h2 : 2 ≤ (sentencesOf nlp text).length) :
    summarize_text nlp text ratio = joinSep " " (summary_sentences nlp text ratio) ∧
    (summary_sentences nlp text ratio).Sublist (sentencesOf nlp text) := by
  have h1 : ¬(sentencesOf nlp text).length ≤ 1 := by omega
  exact ⟨summarize_eq_main nlp text ratio hne h1,
    summary_sentences_sublist nlp text ratio⟩

/-- C3, witness at the four-sentence example text with ratio 0.25. -/
theorem c3_witness :
    summarize_text modelNLP
        "Cats are mammals. Dogs are mammals too. Cats and dogs are popular pets. Both need regular exercise."
        (1 / 4) =
      joinSep " " (summary_sentences modelNLP
        "Cats are mammals. Dogs are mammals too. Cats and dogs are popular pets. Both need regular exercise."
        (1 / 4)) ∧
    (summary_sentences modelNLP
        "Cats are mammals. Dogs are mammals too. Cats and dogs are popular pets. Both need regular exercise."
        (1 / 4)).Sublist
      (sentencesOf modelNLP
        "Cats are mammals. Dogs are mammals too. Cats and dogs are popular pets. Both need regular exercise.") :=
  c3_document_order modelNLP
    "Cats are mammals. Dogs are mammals too. Cats and dogs are popular pets. Both need regular exercise."
    (1 / 4) (by decide) (by decide)

/-! ## Claim C4 -/

/-- C4, counterexample: a non-empty single-sentence text with redundant
whitespace is not returned unchanged — src/summarizer.py line 30 returns the
`_clean_text`-normalized text, not the original input. -/
theorem c4_counterexample :
    pyStrip " Hello  world." ≠ "" ∧
    (sentencesOf modelNLP " Hello  world.").length = 1 ∧
    summarize_text modelNLP " Hello  world." (3 / 10) = "Hello world." ∧
    summarize_text modelNLP " Hello  world." (3 / 10) ≠ " Hello  world." := by
  refine ⟨by decide, by decide, by decide, by decide⟩

/-- C4, amended: for every non-empty text that segments into at most one
sentence, `summarize_text` returns the whitespace-normalized text
`_clean_text text` (which equals the input exactly when the input is already
whitespace-normalized), for every ratio. -/
theorem c4_single_returns_cleaned (nlp : NLP) (text : String) ( ratio : ℚ)
    (hne : pyStrip text ≠ "") (hle : (sentencesOf nlp text).length ≤ 1) :
    summarize_text nlp text ratio = _clean_text text :=
  summarize_eq_single nlp text ratio hne hle

/-- C4, witness on an already-normalized single sentence. -/
theorem c4_witness :
    summarize_text modelNLP "Hello world." (3 / 10) = _clean_text "Hello world." :=
  c4_single_returns_cleaned modelNLP "Hello world." (3 / 10) (by decide) (by decide)

/-! ## Claim C6 -/

/-- C6, counterexample: with an empty frequency table and three sentences at
ratio 0.5 the code returns the first `max(1, floor(3 * 0.5)) = 1` sentence
(src/summarizer.py line 37 uses `int`, i.e. floor), not the first
`ceil(3 * 0.5) = 2` sentences the claim describes. -/
theorem c6_counterexample :
    freqOf modelNLP "The. And. Or." = [] ∧
    (sentencesOf modelNLP "The. And. Or.").length = 3 ∧
    summarize_text modelNLP "The. And. Or." (1 / 2) = "The." ∧
    max 1 (pyCeil ((3 : ℚ) * clamp01 (1 / 2))) = 2 ∧
    joinSep " " ((sentencesOf modelNLP "The. And. Or.").take 2) = "The. And." ∧
    summarize_text modelNLP "The. And. Or." (1 / 2) ≠ "The. And." := by
  refine ⟨by decide, by decide, by decide, by decide, by decide, by decide⟩

/-- C6, amended: when the frequency table is empty and the text has two or
more sentences, `summarize_text` returns the first
`max(1, floor(sentenceCount * ratio))` sentences in document order — floor,
not ceiling, with a minimum of one sentence. -/
theorem c6_empty_freq_floor (nlp : NLP) (text : String) ( ratio : ℚ)
    (hne : pyStrip text ≠ "") (h2 : 2 ≤ (sentencesOf nlp text).length)
    (hfreq : freqOf nlp text = []) :
    summarize_text nlp text ratio =
      joinSep " " ((sentencesOf nlp text).take
        (max 1 (pyInt (((sentencesOf nlp text).length : ℚ) * clamp01 ratio)))) := by
  have h1 : ¬(sentencesOf nlp text).length ≤ 1 := by omega
  rw [summarize_eq_main nlp text ratio hne h1]
  unfold summary_sentences
  rw [if_pos (by simp [hfreq])]
  rfl

/-- C6, witness at the all-stopword three-sentence text with ratio 0.5. -/
theorem c6_witness :
    summarize_text modelNLP "The. And. Or." (1 / 2) =
      joinSep " " ((sentencesOf modelNLP "The. And. Or.").take
        (max 1 (pyInt (((sentencesOf modelNLP "The. And. Or.").length : ℚ) *
          clamp01 (1 / 2))))) :=
  c6_empty_freq_floor modelNLP "The. And. Or." (1 / 2) (by decide) (by decide)
    (by decide)

/-! ## Claim C7 -/

/-- C7: the intent classifier is total and follows the declared priority
order.  For every question, `detect_intent` returns one of the six intents;
when no pattern of any intent matches it returns `"general"`; the first
intent (in table order) with a fully-matched token pattern wins; and on the
three spec examples it returns `key_points`, `make_shorter` and `general`
respectively. -/
theorem c7_intent_classifier :
    (∀ q : String, detect_intent q ∈ intentNames) ∧
    (∀ q : String,
      (intentPatterns.all
        (fun ip => !(ip.2.any (patternMatches (pySplit (normalize_text q)))))) = true →
      detect_intent q = "general") ∧
    (∀ (q : String) (pre : List (String × List (List String))) (i : String)
        (pats : List (List String)) (post : List (String × List (List String))),
      intentPatterns = pre ++ (i, pats) :: post →
      (∀ ip ∈ pre,
        (ip.2.any (patternMatches (pySplit (normalize_text q)))) = false) →
      (pats.any (patternMatches (pySplit (normalize_text q)))) = true →
      detect_intent q = i) ∧
    detect_intent "What are the key points?" = "key_points" ∧
    detect_intent "make it shorter please" = "make_shorter" ∧
    detect_intent "banana" = "general" := by
  refine ⟨?_, ?_, ?_, by decide, by decide, by decide⟩
  · intro q
    unfold detect_intent
    dsimp only
    split
    · rename_i ip hfind
      have hmem := List.mem_of_find?_eq_some hfind
      simp only [intentPatterns, List.mem_cons, List.mem_singleton] at hmem
      rcases hmem with rfl | rfl | rfl | rfl | rfl | h
      · simp [intentNames]
      · simp [intentNames]
      · simp [intentNames]
      · simp [intentNames]
      · simp [intentNames]
      · simp at h
    · simp [intentNames]
  · intro q hall
    have hnone : intentPatterns.find?
        (fun ip => ip.2.any (patternMatches (pySplit (normalize_text q)))) = none := by
      rw [List.find?_eq_none]
      intro ip hip
      have := List.all_eq_true.mp hall ip hip
      simp only [Bool.not_eq_true'] at this
      simp [this]
    unfold detect_intent
    dsimp only
    split
    · rename_i ip hfind
      have hcon : some ip = (none : Option (String × List (List String))) :=
        hfind.symm.trans hnone
      exact absurd hcon (by simp)
    · rfl
  · intro q pre i pats post hEq hpre hpats
    have hval : intentPatterns.find?
        (fun ip => ip.2.any (patternMatches (pySplit (normalize_text q)))) =
        some (i, pats) := by
      rw [hEq, List.find?_append]
      have hnone : pre.find?
          (fun ip => ip.2.any (patternMatches (pySplit (normalize_text q)))) = none := by
        rw [List.find?_eq_none]
        intro ip hip
        simp [hpre ip hip]
      rw [hnone, List.find?_cons_of_pos _ (by simpa using hpats)]
      rfl
    unfold detect_intent
    dsimp only
    split
    · rename_i ip hfind
      have hip : ip = (i, pats) := Option.some.inj (hfind.symm.trans hval)
      rw [hip]
    · rename_i hfind
      have hcon : (none : Option (String × List (List String))) = some (i, pats) :=
        hfind.symm.trans hval
      exact absurd hcon (by simp)

/-- C7, witness: `make_shorter` wins for "make it shorter please" because the
two earlier intents have no matching pattern. -/
theorem c7_witness : detect_intent "make it shorter please" = "make_shorter" :=
  c7_intent_classifier.2.2.1 "make it shorter please"
    [("what_about", [["what", "about"], ["what", "is", "about"], ["tell", "me", "about"]]),
     ("key_points", [["key", "point"], ["main", "point"], ["important", "point"],
                     ["key", "idea"], ["what", "are", "key"]])]
    "make_shorter" [["shorter"], ["shorten"], ["condense"], ["brief"]]
    [("explain", [["explain"], ["elaborate"], ["describe"], ["clarify"]]),
     ("summary_length", [["how", "long"], ["length"], ["word", "count"],
                         ["character", "count"], ["stats"]])]
    (by decide) (by decide) (by decide)

/-! ## Claim C8 -/

/-- C8: with an empty or whitespace-only summary, `chat_with_summary` returns
the fixed "no summary yet" message for every question — this guard runs
before the empty-question fallback and every intent branch
(src/chatbot.py lines 102-103). -/
theorem c8_empty_summary_fallback (question summary : String)
    (h : pyStrip summary = "") :
    chat_with_summary question summary =
      "I don\x27t have a summary to discuss yet. Please generate a summary first!" := by
  unfold chat_with_summary
  rw [if_pos h]

/-- C8, witness: the empty question together with a whitespace-only summary
still produces the "no summary yet" message, showing its precedence over the
empty-question fallback. -/
theorem c8_witness :
    chat_with_summary "" "  " =
      "I don\x27t have a summary to discuss yet. Please generate a summary first!" :=
  c8_empty_summary_fallback "" "  " (by decide)

/-! ## Claim C5 -/

/-- A sentence with no alphanumeric token is never entered into the score
dict. -/
theorem sentScoresOf_alookup_none (nlp : NLP) (text s : String)
    (hc : alnumCount nlp s = 0) : alookup (sentScoresOf nlp text) s = none := by
  unfold sentScoresOf
  rw [buildSentScores_alookup_none]
  · rfl
  · rw [sentScore_eq, if_neg]
    omega

/-- A sentence with alphanumeric tokens is scored by its mean normalized
frequency. -/
theorem sentScoresOf_alookup_some (nlp : NLP) (text s : String)
    (hs : s ∈ sentencesOf nlp text) (hc : 0 < alnumCount nlp s) :
    alookup (sentScoresOf nlp text) s = some (specMeanScore nlp text s) := by
  unfold sentScoresOf
  rw [buildSentScores_alookup_some (sentScore nlp (freqNOf nlp text)) s
    (specMeanScore nlp text s) ?_, if_pos hs]
  rw [sentScore_eq, if_pos hc]
  rfl

/-- C5: every normalized frequency lies in `(0, 1]`; a sentence with no
alphanumeric token is excluded from the score dict and never appears among
the ranked candidates nor in any top selection; and a sentence with
alphanumeric tokens is scored by the sum of its tokens' normalized
frequencies divided by its alphanumeric token count. -/
theorem c5_mean_score (nlp : NLP) (text : String)
    (hfreq : freqOf nlp text ≠ []) :
    (∀ p ∈ freqNOf nlp text, 0 < p.2 ∧ p.2 ≤ 1) ∧
    (∀ s ∈ sentencesOf nlp text,
      (alnumCount nlp s = 0 →
        alookup (sentScoresOf nlp text) s = none ∧
        s ∉ (rankedOf nlp text).map Prod.fst ∧
        (∀ q : ℚ, s ∉ topOf nlp text q)) ∧
      (0 < alnumCount nlp s →
        alookup (sentScoresOf nlp text) s = some (specMeanScore nlp text s))) := by
  refine ⟨freqNOf_mem_unit nlp text, ?_⟩
  intro s hs
  constructor
  · intro hc
    have hnone := sentScoresOf_alookup_none nlp text s hc
    have hnotkeys : s ∉ (sentScoresOf nlp text).map Prod.fst :=
      (alookup_eq_none_iff _ s).mp hnone
    have hperm : List.Perm ((rankedOf nlp text).map Prod.fst)
        ((sentScoresOf nlp text).map Prod.fst) :=
      (sortDesc_perm (sentScoresOf nlp text)).map Prod.fst
    have hnotranked : s ∉ (rankedOf nlp text).map Prod.fst := by
      intro hcon
      exact hnotkeys (hperm.mem_iff.mp hcon)
    refine ⟨hnone, hnotranked, ?_⟩
    intro q hcon
    unfold topOf at hcon
    obtain ⟨p, hp, hps⟩ := List.mem_map.mp hcon
    exact hnotranked (List.mem_map.mpr ⟨p, List.mem_of_mem_take hp, hps⟩)
  · intro hc
    exact sentScoresOf_alookup_some nlp text s hs hc

/-- C5, witness: the first sentence of the four-sentence example carries its
mean normalized frequency in the score dict. -/
theorem c5_witness :
    alookup (sentScoresOf modelNLP
        "Cats are mammals. Dogs are mammals too. Cats and dogs are popular pets. Both need regular exercise.")
      "Cats are mammals." =
      some (specMeanScore modelNLP
        "Cats are mammals. Dogs are mammals too. Cats and dogs are popular pets. Both need regular exercise."
        "Cats are mammals.") :=
  ((c5_mean_score modelNLP
      "Cats are mammals. Dogs are mammals too. Cats and dogs are popular pets. Both need regular exercise."
      (by decide)).2 "Cats are mammals." (by decide)).2 (by decide)

/-! ## Claim C1 -/

/-- The score dict has distinct sentence keys. -/
theorem sentScoresOf_nodup (nlp : NLP) (text : String) :
    ((sentScoresOf nlp text).map Prod.fst).Nodup :=
  buildSentScores_nodup _ _ [] (by simp)

/-- Every key of the score dict is a segmented sentence. -/
theorem sentScoresOf_keys_sub (nlp : NLP) (text : String) :
    ∀ s ∈ (sentScoresOf nlp text).map Prod.fst, s ∈ sentencesOf nlp text := by
  intro s hs
  rcases buildSentScores_keys _ _ [] s hs with h | h
  · exact h
  · simp at h

/-- With distinct sentences, the dict size counts the sentences that carry an
alphanumeric token. -/
theorem sentScoresOf_length (nlp : NLP) (text : String)
    (hnd : (sentencesOf nlp text).Nodup) :
    (sentScoresOf nlp text).length =
      ((sentencesOf nlp text).filter (fun s => 0 < alnumCount nlp s)).length := by
  unfold sentScoresOf
  rw [buildSentScores_length _ _ [] hnd (fun s _ => rfl)]
  simp only [List.length_nil, Nat.zero_add]
  congr 1
  apply List.filter_congr
  intro s _
  rw [sentScore_eq]
  by_cases hc : 0 < alnumCount nlp s
  · simp [hc]
  · simp [hc]

/-- With distinct sentences and enough scored candidates, the top selection
has exactly `selectN` elements, all distinct segmented sentences. -/
theorem topOf_spec (nlp : NLP) (text : String) ( ratio : ℚ)
    (hnd : (sentencesOf nlp text).Nodup)
    (henough : selectN nlp text ratio ≤
      ((sentencesOf nlp text).filter (fun s => 0 < alnumCount nlp s)).length) :
    (topOf nlp text ratio).length = selectN nlp text ratio ∧
    (topOf nlp text ratio).Nodup ∧
    (∀ s ∈ topOf nlp text ratio, s ∈ sentencesOf nlp text) := by
  have hperm : List.Perm ((rankedOf nlp text).map Prod.fst)
      ((sentScoresOf nlp text).map Prod.fst) :=
    (sortDesc_perm (sentScoresOf nlp text)).map Prod.fst
  have hrankedlen : (rankedOf nlp text).length = (sentScoresOf nlp text).length :=
    (sortDesc_perm (sentScoresOf nlp text)).length_eq
  have hlen : selectN nlp text ratio ≤ (rankedOf nlp text).length := by
    rw [hrankedlen, sentScoresOf_length nlp text hnd]
    exact henough
  refine ⟨?_, ?_, ?_⟩
  · unfold topOf
    rw [List.length_map, List.length_take]
    omega
  · unfold topOf
    rw [List.map_take]
    have hnodup : ((rankedOf nlp text).map Prod.fst).Nodup :=
      hperm.nodup_iff.mpr (sentScoresOf_nodup nlp text)
    exact List.Nodup.sublist (List.take_sublist _ _) hnodup
  · intro s hs
    unfold topOf at hs
    obtain ⟨p, hp, hps⟩ := List.mem_map.mp hs
    have hkey : s ∈ (sentScoresOf nlp text).map Prod.fst :=
      hperm.mem_iff.mp (List.mem_map.mpr ⟨p, List.mem_of_mem_take hp, hps⟩)
    exact sentScoresOf_keys_sub nlp text s hkey

/-- Filtering distinct sentences through membership in a distinct sub-collection
counts that collection. -/
theorem filter_contains_length (sents top : List String) (hnd : sents.Nodup)
    (hndt : top.Nodup) (hsub : ∀ s ∈ top, s ∈ sents) :
    (sents.filter (fun s => top.contains s)).length = top.length := by
  have hperm : List.Perm (sents.filter (fun s => top.contains s)) top := by
    rw [List.perm_ext_iff_of_nodup (hnd.filter _) hndt]
    intro a
    simp only [List.mem_filter]
    constructor
    · intro h
      simpa using h.2
    · intro ha
      exact ⟨hsub a ha, by simpa using ha⟩
  exact hperm.length_eq

/-- C1, amended: for every text with at least two segmented sentences and any
ratio, each selected sentence comes from the segmented sentence sequence;
and provided the segmented sentences are pairwise distinct and at least
`N = max(1, floor(sentenceCount * ratio))` of them contain an alphanumeric
token, the summary consists of exactly `N` sentences. -/
theorem c1_select_count (nlp : NLP) (text : String) ( ratio : ℚ)
    (hne : pyStrip text ≠ "") (h2 : 2 ≤ (sentencesOf nlp text).length) :
    (∀ s ∈ summary_sentences nlp text ratio, s ∈ sentencesOf nlp text) ∧
    ((sentencesOf nlp text).Nodup →
      selectN nlp text ratio ≤
        ((sentencesOf nlp text).filter (fun s => 0 < alnumCount nlp s)).length →
      (summary_sentences nlp text ratio).length = selectN nlp text ratio ∧
      summarize_text nlp text ratio =
        joinSep " " (summary_sentences nlp text ratio)) := by
  refine ⟨summary_sentences_mem nlp text ratio, ?_⟩
  intro hnd henough
  have h1 : ¬(sentencesOf nlp text).length ≤ 1 := by omega
  refine ⟨?_, summarize_eq_main nlp text ratio hne h1⟩
  have htop := topOf_spec nlp text ratio hnd henough
  have hfiltlen : ((sentencesOf nlp text).filter
      (fun s => (topOf nlp text ratio).contains s)).length = selectN nlp text ratio := by
    rw [filter_contains_length (sentencesOf nlp text) (topOf nlp text ratio) hnd
      htop.2.1 htop.2.2]
    exact htop.1
  unfold summary_sentences
  split_ifs with hf hsel
  · rw [List.length_take]
    have hle := selectN_le nlp text ratio (by omega)
    omega
  · exfalso
    have hnil : ((sentencesOf nlp text).filter
        (fun s => (topOf nlp text ratio).contains s)) = [] := by
      simpa using hsel
    rw [hnil] at hfiltlen
    have hge : 1 ≤ selectN nlp text ratio := le_max_left _ _
    simp only [List.length_nil] at hfiltlen
    omega
  · exact hfiltlen

/-- C1, counterexample: with a duplicated sentence and the valid ratio 0.5,
`N = max(1, floor(2 * 0.5)) = 1` but the summary contains both duplicate
occurrences — the `sentences`-filter on src/summarizer.py line 57 re-emits
every occurrence of a selected sentence string. -/
theorem c1_counterexample :
    (1 : ℚ) / 10 ≤ 1 / 2 ∧ ((1 : ℚ) / 2) ≤ 9 / 10 ∧
    2 ≤ (sentencesOf modelNLP "Cats eat fish. Cats eat fish.").length ∧
    selectN modelNLP "Cats eat fish. Cats eat fish." (1 / 2) = 1 ∧
    (summary_sentences modelNLP "Cats eat fish. Cats eat fish." (1 / 2)).length = 2 ∧
    summarize_text modelNLP "Cats eat fish. Cats eat fish." (1 / 2) =
      "Cats eat fish. Cats eat fish." := by
  refine ⟨by decide, by decide, by decide, by decide, by decide, by decide⟩

/-- C1, witness at the four-sentence example with ratio 0.25. -/
theorem c1_witness :
    (summary_sentences modelNLP
        "Cats are mammals. Dogs are mammals too. Cats and dogs are popular pets. Both need regular exercise."
        (1 / 4)).length =
      selectN modelNLP
        "Cats are mammals. Dogs are mammals too. Cats and dogs are popular pets. Both need regular exercise."
        (1 / 4) ∧
    summarize_text modelNLP
        "Cats are mammals. Dogs are mammals too. Cats and dogs are popular pets. Both need regular exercise."
        (1 / 4) =
      joinSep " " (summary_sentences modelNLP
        "Cats are mammals. Dogs are mammals too. Cats and dogs are popular pets. Both need regular exercise."
        (1 / 4)) :=
  (c1_select_count modelNLP
      "Cats are mammals. Dogs are mammals too. Cats and dogs are popular pets. Both need regular exercise."
      (1 / 4) (by decide) (by decide)).2 (by decide) (by decide)

/-! ## Theorems: the summarizer output is whitespace-normalized -/

/-- A string is empty exactly when its character list is. -/
theorem data_eq_nil_iff (s : String) : s.data = [] ↔ s = "" := by
  constructor
  · intro h
    have : String.mk s.data = String.mk [] := by rw [h]
    exact this
  · intro h
    rw [h]

/-- Blank strings have no sentences. -/
theorem sent_tokenize_nil (s : String) (h : pyStrip s = "") :
    sent_tokenize s = [] := by
  have hall := (pyStrip_eq_empty_iff s).mp h
  have hnil : cleanChars s.data = [] :=
    (pyStripChars_eq_nil_iff _).mpr (squashAux_all_ws s.data false hall)
  unfold sent_tokenize
  rw [hnil]
  rfl

/-- Every sentence of the model tokenizer has only single interior spaces. -/
theorem sent_tokenize_piece_clean (text : String) :
    ∀ p ∈ sent_tokenize text,
      (∀ c ∈ p.data, c.isWhitespace → c = ' ') ∧ List.Chain' noDbl p.data := by
  intro p hp
  have hinf := sent_tokenize_within text p hp
  have hcl := cleanChars_clean text.data
  constructor
  · intro c hc hw
    exact hcl.1 c (hinf.mem hc) hw
  · exact List.Chain'.infix hcl.2.1 hinf

/-- Joining well-formed normalized pieces with single spaces yields a
normalized string. -/
theorem joinSep_clean : ∀ (pieces : List String), pieces ≠ [] →
    (∀ p ∈ pieces, GoodPiece p ∧
      (∀ c ∈ p.data, c.isWhitespace → c = ' ') ∧ List.Chain' noDbl p.data) →
    CleanData (joinSep " " pieces).data := by
  intro pieces
  induction pieces with
  | nil =>
    intro h _
    exact absurd rfl h
  | cons p rest ih =>
    intro _ hall
    have hp := hall p (List.mem_cons_self _ _)
    cases rest with
    | nil =>
      exact ⟨hp.2.1, hp.2.2, hp.1.2.2.1, hp.1.2.2.2⟩
    | cons q rs =>
      have hJ := ih (by simp) (fun x hx => hall x (List.mem_cons_of_mem _ hx))
      have hJne : (joinSep " " (q :: rs)).data ≠ [] := by
        rw [Ne, data_eq_nil_iff]
        apply joinSep_ne_empty
        · simp
        · intro x hx
          exact (hall x (List.mem_cons_of_mem _ hx)).1.1
      have hdata : (joinSep " " (p :: q :: rs)).data =
          p.data ++ ' ' :: (joinSep " " (q :: rs)).data := by
        rw [show joinSep " " (p :: q :: rs) = p ++ " " ++ joinSep " " (q :: rs) from rfl,
          data_append, data_append, List.append_assoc]
        rfl
      rw [hdata]
      refine ⟨?_, ?_, ?_, ?_⟩
      · intro c hc hw
        rcases List.mem_append.mp hc with hc | hc
        · exact hp.2.1 c hc hw
        · rcases List.mem_cons.mp hc with rfl | hc
          · rfl
          · exact hJ.1 c hc hw
      · rw [List.chain'_append]
        refine ⟨hp.2.2, ?_, ?_⟩
        · rw [List.chain'_cons']
          refine ⟨?_, hJ.2.1⟩
          intro y hy
          have := hJ.2.2.1 y (Option.mem_def.mp hy)
          intro hcon
          exact this hcon.2
        · intro x hx y hy
          have hlp := hp.1.2.2.2 x (Option.mem_def.mp hx)
          intro hcon
          exact hlp hcon.1
      · intro h hh
        rw [List.head?_append_of_ne_nil _ hp.1.1] at hh
        exact hp.1.2.2.1 h hh
      · intro h hh
        rw [List.getLast?_append_of_ne_nil _
            (by simp : (' ' :: (joinSep " " (q :: rs)).data) ≠ []),
          getLast?_cons_ne _ _ hJne] at hh
        exact hJ.2.2.2 h hh

/-- Every output of the model summarizer is empty or whitespace-normalized. -/
theorem summarize_clean (text : String) ( ratio : ℚ) :
    summarize_text modelNLP text ratio = "" ∨
    CleanData (summarize_text modelNLP text ratio).data := by
  by_cases hstrip : pyStrip text = ""
  · left
    exact summarize_eq_empty modelNLP text ratio hstrip
  · right
    by_cases h1 : (sentencesOf modelNLP text).length ≤ 1
    · rw [summarize_eq_single modelNLP text ratio hstrip h1]
      exact cleanChars_clean text.data
    · rw [summarize_eq_main modelNLP text ratio hstrip h1]
      apply joinSep_clean
      · apply summary_sentences_ne_nil
        omega
      · intro p hp
        have hmem : p ∈ sent_tokenize text := by
          rw [← sentencesOf_model]
          exact summary_sentences_mem modelNLP text ratio p hp
        exact ⟨sent_tokenize_good text p hmem, sent_tokenize_piece_clean text p hmem⟩

/-! ## Claim C10 -/

/-- Splitting on blank lines finds a single chunk when there is no newline. -/
theorem splitNN_no_newline : ∀ (cs acc : List Char), (∀ c ∈ cs, c ≠ '\n') →
    splitNN cs acc = [acc.reverse ++ cs] := by
  intro cs
  induction cs with
  | nil =>
    intro acc _
    simp [splitNN]
  | cons c rest ih =>
    intro acc hnl
    cases rest with
    | nil =>
      simp only [splitNN, List.reverse_cons, List.append_assoc]
    | cons c2 rs =>
      have hc : c ≠ '\n' := hnl c (List.mem_cons_self _ _)
      rw [show splitNN (c :: c2 :: rs) acc = splitNN (c2 :: rs) (c :: acc) from by
        simp [splitNN, hc]]
      rw [ih (c :: acc) (fun d hd => hnl d (List.mem_cons_of_mem _ hd))]
      simp

/-- A nonempty string without newlines that starts with a non-whitespace
character is a single paragraph under the blank-line definition of
`get_summary_stats`. -/
theorem paragraph_count_one (s : String) (hne : s ≠ "")
    (hnl : ∀ c ∈ s.data, c ≠ '\n')
    (hhd : ∀ h, s.data.head? = some h → ¬h.isWhitespace) :
    paragraph_count s = 1 := by
  unfold paragraph_count
  rw [splitNN_no_newline s.data [] hnl]
  have hdne : s.data ≠ [] := by
    rw [Ne, data_eq_nil_iff]
    exact hne
  have hstrip : (pyStripChars s.data).isEmpty = false := by
    apply isEmpty_false
    intro e
    have hall := (pyStripChars_eq_nil_iff s.data).mp e
    cases hd : s.data with
    | nil => exact hdne hd
    | cons c t =>
      have hcw := hhd c (by rw [hd]; rfl)
      exact hcw (hall c (by rw [hd]; exact List.mem_cons_self _ _))
  simp [hstrip]

/-- C10: no summarizer output contains a newline or two adjacent whitespace
characters — all input whitespace, including paragraph breaks, is collapsed
to single spaces — and any non-empty output counts as exactly one paragraph
under the blank-line definition used by `get_summary_stats`. -/
theorem c10_normalized_output (text : String) ( ratio : ℚ) :
    (∀ c ∈ (summarize_text modelNLP text ratio).data, c ≠ '\n') ∧
    List.Chain' noDbl (summarize_text modelNLP text ratio).data ∧
    (summarize_text modelNLP text ratio ≠ "" →
      paragraph_count (summarize_text modelNLP text ratio) = 1) := by
  rcases summarize_clean text ratio with hempty | hclean
  · rw [hempty]
    refine ⟨by simp, by simp, ?_⟩
    intro h
    exact absurd rfl h
  · have hnl : ∀ c ∈ (summarize_text modelNLP text ratio).data, c ≠ '\n' := by
      intro c hc hcon
      subst hcon
      have := hclean.1 '\n' hc (by decide)
      exact absurd this (by decide)
    refine ⟨hnl, hclean.2.1, ?_⟩
    intro hne
    exact paragraph_count_one _ hne hnl hclean.2.2.1

/-- C10, witness at the four-sentence example with ratio 0.25. -/
theorem c10_witness :
    paragraph_count (summarize_text modelNLP
      "Cats are mammals. Dogs are mammals too. Cats and dogs are popular pets. Both need regular exercise."
      (1 / 4)) = 1 :=
  (c10_normalized_output
    "Cats are mammals. Dogs are mammals too. Cats and dogs are popular pets. Both need regular exercise."
    (1 / 4)).2.2 (by decide)

/-! ## Claim C9 -/

/-- Squashing steps through the concrete chat prefix, collapsing its blank
line to a single space. -/
theorem squash_shorter_header (cs : List Char) :
    squashAux false (("📝 Shorter version:\n\n").data ++ cs) =
      ("📝 Shorter version: ").data ++ squashAux true cs := rfl

/-- The sentence splitter accumulates the whole break-free chat prefix. -/
theorem aux_shorter_header (cs : List Char) :
    splitSentencesAux (("📝 Shorter version: ").data ++ cs) [] =
      splitSentencesAux cs (("📝 Shorter version: ").data.reverse) := rfl

/-- The chat responder answers "make it shorter" with the prefixed
re-summarization at ratio 0.5 (src/chatbot.py lines 120-122). -/
theorem chat_make_shorter_eq (summary : String) (h : pyStrip summary ≠ "") :
    chat_with_summary "make it shorter" summary =
      "📝 Shorter version:\n\n" ++ make_shorter summary (1 / 2) := by
  unfold chat_with_summary
  rw [if_neg h, if_neg (by decide)]
  have hint : detect_intent "make it shorter" = "make_shorter" := by decide
  dsimp only
  rw [hint, if_neg (by decide), if_neg (by decide), if_pos rfl]

/-- C9: for every summary with more than one sentence, the answer to
"make it shorter" has at most as many sentences as the summary itself. -/
theorem c9_make_shorter_shrinks (summary : String)
    (h2 : 2 ≤ (sent_tokenize summary).length) :
    (sent_tokenize (chat_with_summary "make it shorter" summary)).length ≤
      (sent_tokenize summary).length := by
  have hstrip : pyStrip summary ≠ "" := by
    intro h
    rw [sent_tokenize_nil summary h] at h2
    simp at h2
  rw [chat_make_shorter_eq summary hstrip]
  have hn' : (sentencesOf modelNLP summary).length = (sent_tokenize summary).length := by
    rw [sentencesOf_model]
  have h1 : ¬(sentencesOf modelNLP summary).length ≤ 1 := by omega
  have hnew_ne : summarize_text modelNLP summary (1 / 2) ≠ "" :=
    summarize_model_ne_empty summary (1 / 2) hstrip
  have hms : make_shorter summary (1 / 2) = summarize_text modelNLP summary (1 / 2) := by
    unfold make_shorter
    rw [if_neg hnew_ne]
  rw [hms]
  have hclean : CleanData (summarize_text modelNLP summary (1 / 2)).data := by
    rcases summarize_clean summary (1 / 2) with h | h
    · exact absurd h hnew_ne
    · exact h
  have hdne : (summarize_text modelNLP summary (1 / 2)).data ≠ [] := by
    rw [Ne, data_eq_nil_iff]
    exact hnew_ne
  have hsq : squashAux true (summarize_text modelNLP summary (1 / 2)).data =
      (summarize_text modelNLP summary (1 / 2)).data :=
    (squashAux_eq_self _ hclean.1 hclean.2.1).2 hclean.2.2.1
  have hcleanR : cleanChars ("📝 Shorter version:\n\n" ++
      summarize_text modelNLP summary (1 / 2)).data =
      ("📝 Shorter version: ").data ++ (summarize_text modelNLP summary (1 / 2)).data := by
    rw [data_append]
    unfold cleanChars
    rw [squash_shorter_header, hsq]
    apply pyStripChars_eq_self
    · intro h hh
      rw [List.head?_append_of_ne_nil _ (by decide)] at hh
      have hhp : h = '📝' := by
        have he : (("📝 Shorter version: ").data).head? = some '📝' := rfl
        rw [he] at hh
        exact (Option.some.inj hh).symm
      rw [hhp]
      decide
    · intro h hh
      rw [List.getLast?_append_of_ne_nil _ hdne] at hh
      exact hclean.2.2.2 h hh
  rw [show sent_tokenize ("📝 Shorter version:\n\n" ++
      summarize_text modelNLP summary (1 / 2)) =
      splitSentencesAux (cleanChars ("📝 Shorter version:\n\n" ++
        summarize_text modelNLP summary (1 / 2)).data) [] from rfl,
    hcleanR, aux_shorter_header]
  have hlen := aux_len_le (summarize_text modelNLP summary (1 / 2)).data
    (("📝 Shorter version: ").data.reverse) (by decide)
  have hmain := summarize_eq_main modelNLP summary (1 / 2) hstrip h1
  have hgood : ∀ p ∈ summary_sentences modelNLP summary (1 / 2), GoodPiece p := by
    intro p hp
    have hmem : p ∈ sent_tokenize summary := by
      rw [← sentencesOf_model]
      exact summary_sentences_mem modelNLP summary (1 / 2) p hp
    exact sent_tokenize_good summary p hmem
  have hinner : (splitSentencesAux
      (summarize_text modelNLP summary (1 / 2)).data []).length ≤
      (sent_tokenize summary).length := by
    rw [hmain]
    calc (splitSentencesAux
          (joinSep " " (summary_sentences modelNLP summary (1 / 2))).data []).length
        ≤ (summary_sentences modelNLP summary (1 / 2)).length :=
          join_pieces_bound _ hgood
      _ ≤ (sentencesOf modelNLP summary).length :=
          (summary_sentences_sublist modelNLP summary (1 / 2)).length_le
      _ = (sent_tokenize summary).length := hn'
  have hmax : max 1 ((splitSentencesAux
      (summarize_text modelNLP summary (1 / 2)).data []).length) ≤
      (sent_tokenize summary).length := by
    apply max_le
    · omega
    · exact hinner
  exact le_trans hlen hmax

/-- C9, witness at a three-sentence summary. -/
theorem c9_witness :
    (sent_tokenize (chat_with_summary "make it shorter"
        "Cats are nice animals. Dogs bark loudly at night. Birds fly very high.")).length ≤
      (sent_tokenize
        "Cats are nice animals. Dogs bark loudly at night. Birds fly very high.").length :=
  c9_make_shorter_shrinks
    "Cats are nice animals. Dogs bark loudly at night. Birds fly very high." (by decide)

end Summarix
